import Mathlib

/-!
Verification of the `aidocwriter` stage orchestrator against its
natural-language specification.  Definitions are shallow embeddings of
the Python source under `src/docwriter/`; machine integers are modelled
as `Int` (Python ints are unbounded, so no wrap-around is needed).
-/

set_option maxHeartbeats 1000000

namespace DocWriter

/-! ## Cycle state (`src/docwriter/stages/cycles.py`)

A value read out of a payload mapping is either absent (which includes a
stored Python `None`), an int-coercible value `intv n`, or a present but
non-coercible value `junk` (e.g. a non-numeric string, for which Python's
`int(...)` raises and `coerce_int` falls back to the default). -/

inductive CtxVal where
  | absent : CtxVal
  | intv : Int → CtxVal
  | junk : CtxVal
deriving DecidableEq, Repr

/-- `coerce_int(value, default)`: best-effort conversion to int. -/
def coerce_int (v : CtxVal) (default : Int) : Int :=
  match v with
  | .intv n => n
  | _ => default

/-- The cycle-relevant fields of a payload mapping. -/
structure CyclePayload where
  cycles : CtxVal
  expected_cycles : CtxVal
  cycles_completed : CtxVal
  cycles_remaining : CtxVal
deriving DecidableEq, Repr

structure CycleState where
  requested : Int
  completed : Int
deriving DecidableEq, Repr

namespace CycleState

/-- `CycleState.from_context(context)`.  `context.get("expected_cycles", 1)`
yields the literal `1` when the key is absent, hence the inner default. -/
def from_context (ctx : CyclePayload) : CycleState :=
  let requested0 :=
    coerce_int ctx.cycles
      (match ctx.expected_cycles with
       | .absent => 1
       | v => coerce_int v 0)
  let requested := max 1 requested0
  let completed0 := coerce_int ctx.cycles_completed 0
  let completed1 := max 0 (min requested completed0)
  match ctx.cycles_remaining with
  | .absent => { requested := requested, completed := completed1 }
  | hint =>
      let remaining := max 0 (min (requested - completed1) (coerce_int hint 0))
      { requested := requested, completed := min requested (requested - remaining) }

/-- `CycleState.remaining` property. -/
def remaining (s : CycleState) : Int :=
  max 0 (s.requested - s.completed)

/-- `CycleState.exhausted` property. -/
def exhausted (s : CycleState) : Bool :=
  s.remaining ≤ 0

/-- `CycleState.consume_rewrite`. -/
def consume_rewrite (s : CycleState) : CycleState :=
  if s.exhausted then s
  else { requested := s.requested, completed := min s.requested (s.completed + 1) }

/-- The fields written back by `CycleState.apply(target)`. -/
structure AppliedCycles where
  cycles : Int
  expected_cycles : Int
  cycles_completed : Int
  cycles_remaining : Int
deriving DecidableEq, Repr

/-- `CycleState.apply(target)`: the cycle fields the payload holds afterwards. -/
def apply (s : CycleState) : AppliedCycles :=
  { cycles := s.requested
    expected_cycles := s.requested
    cycles_completed := s.completed
    cycles_remaining := s.remaining }

end CycleState

lemma from_context_requested_pos (ctx : CyclePayload) :
    1 ≤ (CycleState.from_context ctx).requested := by
  unfold CycleState.from_context
  cases ctx.cycles_remaining <;> simp <;> omega

lemma from_context_completed_bounds (ctx : CyclePayload) :
    0 ≤ (CycleState.from_context ctx).completed ∧
      (CycleState.from_context ctx).completed ≤ (CycleState.from_context ctx).requested := by
  unfold CycleState.from_context
  cases ctx.cycles_remaining <;> simp <;> omega

/-! ## String utilities shared by the embeddings

Python strings are modelled as `List Char`.  `pyIsSpace` is Python's
`str`-whitespace set (used by `str.strip()` / `str.isspace()`). -/

def pyIsSpace (c : Char) : Bool :=
  let n := c.toNat
  (9 ≤ n && n ≤ 13) || (28 ≤ n && n ≤ 32) || n == 133 || n == 160 ||
    n == 5760 || (8192 ≤ n && n ≤ 8202) || n == 8232 || n == 8233 ||
    n == 8239 || n == 8287 || n == 12288

/-- `s.strip()` yields the empty string, i.e. `not s.strip()` in Python. -/
def isBlank (s : List Char) : Bool := s.all pyIsSpace

/-- `s.strip()` (both ends, Python whitespace). -/
def pyStrip (s : List Char) : List Char :=
  ((s.dropWhile pyIsSpace).reverse.dropWhile pyIsSpace).reverse

/-- `haystack.find(needle)`: index of the first occurrence, `none` if absent. -/
def findSub : List Char → List Char → Option Nat
  | s, pat =>
    if pat.isPrefixOf s then some 0
    else
      match s with
      | [] => none
      | _ :: t => (findSub t pat).map (· + 1)

/-- `needle in haystack`. -/
def containsSub (s pat : List Char) : Bool := (findSub s pat).isSome

/-- `s.lower()` (adequate for the ASCII strings compared here). -/
def lowerAll (s : List Char) : List Char := s.map Char.toLower

/-- Structural worker for `replaceAll`; the fuel bounds the scan length
(one unit per consumed character suffices). -/
def replaceAllGo : Nat → List Char → List Char → List Char → List Char
  | _, [], _, _ => []
  | 0, s, _, _ => s
  | fuel + 1, c :: rest, old, new =>
    if old ≠ [] ∧ old.isPrefixOf (c :: rest) then
      new ++ replaceAllGo fuel ((c :: rest).drop old.length) old new
    else c :: replaceAllGo fuel rest old new

/-- `s.replace(old, new)` for nonempty `old` (every caller in the embedded
code passes a nonempty marker string; Python's interleaving behaviour on an
empty `old` is not reproduced). -/
def replaceAll (s old new : List Char) : List Char :=
  replaceAllGo s.length s old new

/-! ## Section extraction and merge (`src/docwriter/stage_utils.py`) -/

def sectionStartMarker (sid : List Char) : List Char :=
  "<!-- SECTION:".toList ++ sid ++ ":START -->".toList

def sectionEndMarker (sid : List Char) : List Char :=
  "<!-- SECTION:".toList ++ sid ++ ":END -->".toList

/-- A match of `SECTION_START_RE` at the head of `s`: returns the captured
id (the maximal nonempty colon-free run after `<!-- SECTION:`) and the
length of the whole match. -/
def matchSectionStart (s : List Char) : Option (List Char × Nat) :=
  if ("<!-- SECTION:".toList).isPrefixOf s then
    let rest := s.drop 13
    let sid := rest.takeWhile (· ≠ ':')
    if sid ≠ [] ∧ (":START -->".toList).isPrefixOf (rest.drop sid.length) then
      some (sid, 13 + sid.length + 10)
    else none
  else none

/-- Python `dict` assignment `d[k] = v`: overwrite in place, else append. -/
def dictInsert (d : List (List Char × List Char)) (k v : List Char) :
    List (List Char × List Char) :=
  if d.any (fun p => p.1 = k) then
    d.map (fun p => if p.1 = k then (k, v) else p)
  else d ++ [(k, v)]

/-- Python `d.get(k)`. -/
def dictGet (d : List (List Char × List Char)) (k : List Char) :
    Option (List Char) :=
  (d.find? (fun p => p.1 = k)).map (·.2)

/-- The scanning loop of `extract_sections`: `finditer` visits
non-overlapping matches left to right, resuming at each match's end; for
each match the closing marker is searched from the match's end and the
slice `text[start:end]` is stored under the id. -/
def extractFrom (text : List Char) : Nat → Nat → List (List Char × List Char) →
    List (List Char × List Char)
  | _, 0, acc => acc
  | pos, fuel + 1, acc =>
    if text.length ≤ pos then acc
    else
      match matchSectionStart (text.drop pos) with
      | some (sid, mlen) =>
          let newPos := pos + mlen
          let acc' :=
            match findSub (text.drop newPos) (sectionEndMarker sid) with
            | some r =>
                dictInsert acc sid
                  ((text.drop pos).take (mlen + r + (sectionEndMarker sid).length))
            | none => acc
          extractFrom text newPos fuel acc'
      | none => extractFrom text (pos + 1) fuel acc

/-- `extract_sections(text)`. -/
def extract_sections (text : List Char) : List (List Char × List Char) :=
  extractFrom text 0 (text.length + 1) []

/-- One iteration of the `for sid, section_text in revised_sections.items()`
loop in `merge_revised_markdown`. -/
def mergeSection (original_sections : List (List Char × List Char))
    (updated : List Char) (p : List Char × List Char) : List Char :=
  let sid := p.1
  let section_text := p.2
  match dictGet original_sections sid with
  | none => updated
  | some original_section =>
    if original_section = [] then updated
    else
      let inner := pyStrip
        (replaceAll (replaceAll section_text (sectionStartMarker sid) [])
          (sectionEndMarker sid) [])
      if inner = [] ∨ containsSub (lowerAll inner) ("content unchanged".toList)
      then updated
      else replaceAll updated original_section section_text

/-- `merge_revised_markdown(original, revised)`. -/
def merge_revised_markdown (original revised : List Char) : List Char :=
  if isBlank revised then original
  else
    let revised_sections := extract_sections revised
    if revised_sections = [] then revised
    else
      let original_sections := extract_sections original
      if original_sections = [] then revised
      else
        revised_sections.foldl (mergeSection original_sections) original

/-! ### Lemmas about `replaceAll`, dicts and `extract_sections` -/

lemma replaceAllGo_self (fuel : Nat) :
    ∀ (s p : List Char), s.length ≤ fuel → replaceAllGo fuel s p p = s := by
  induction fuel with
  | zero =>
    intro s p hs
    match s, hs with
    | [], _ => rfl
  | succ fuel ih =>
    intro s p hs
    match s with
    | [] => rfl
    | c :: rest =>
      rw [replaceAllGo]
      split
      · next h =>
        have hpre : p <+: (c :: rest) := List.isPrefixOf_iff_prefix.mp h.2
        have hplen : 0 < p.length := List.length_pos.mpr h.1
        obtain ⟨t, ht⟩ := hpre
        have hdrop : (c :: rest).drop p.length = t := by
          rw [← ht, List.drop_left]
        have hlen2 : p.length + t.length = (c :: rest).length := by
          rw [← ht]; simp
        rw [hdrop, ih t p (by simp at hs hlen2 ⊢; omega), ht]
      · simp at hs
        rw [ih rest p (by omega)]

lemma replaceAll_self (s p : List Char) : replaceAll s p p = s :=
  replaceAllGo_self s.length s p le_rfl

lemma dictInsert_keys_nodup (d : List (List Char × List Char)) (k v : List Char)
    (h : (d.map Prod.fst).Nodup) : ((dictInsert d k v).map Prod.fst).Nodup := by
  unfold dictInsert
  split
  · have : (d.map (fun p => if p.1 = k then (k, v) else p)).map Prod.fst = d.map Prod.fst := by
      rw [List.map_map]
      apply List.map_congr_left
      intro p _
      by_cases hp : p.1 = k <;> simp [hp]
    rw [this]
    exact h
  · next hne =>
    rw [List.map_append]
    refine List.Nodup.append h (by simp) ?_
    intro a ha hb
    simp only [List.map_cons, List.map_nil, List.mem_singleton] at hb
    subst hb
    obtain ⟨p, hp, hpk⟩ := List.mem_map.mp ha
    exact hne (List.any_eq_true.mpr ⟨p, hp, by simp [hpk]⟩)

lemma dictGet_mem (d : List (List Char × List Char)) (k v : List Char)
    (hu : (d.map Prod.fst).Nodup) (hm : (k, v) ∈ d) : dictGet d k = some v := by
  induction d with
  | nil => simp at hm
  | cons a t ih =>
    simp only [List.map_cons, List.nodup_cons] at hu
    rcases List.mem_cons.mp hm with heq | htl
    · subst heq
      simp [dictGet, List.find?]
    · by_cases hk : a.1 = k
      · exfalso
        apply hu.1
        rw [hk]
        exact List.mem_map.mpr ⟨(k, v), htl, rfl⟩
      · have := ih hu.2 htl
        simpa [dictGet, List.find?_cons, hk] using this

lemma extractFrom_keys_nodup (text : List Char) (pos fuel : Nat)
    (acc : List (List Char × List Char)) (h : (acc.map Prod.fst).Nodup) :
    ((extractFrom text pos fuel acc).map Prod.fst).Nodup := by
  induction fuel generalizing pos acc with
  | zero => simpa [extractFrom] using h
  | succ fuel ih =>
    rw [extractFrom]
    split
    · exact h
    · split
      · next sid mlen _ =>
        apply ih
        split
        · exact dictInsert_keys_nodup _ _ _ h
        · exact h
      · exact ih _ _ h

lemma extract_sections_keys_nodup (text : List Char) :
    ((extract_sections text).map Prod.fst).Nodup :=
  extractFrom_keys_nodup text 0 (text.length + 1) [] (by simp)

lemma mergeSection_self (orig : List (List Char × List Char)) (u : List Char)
    (p : List Char × List Char) (h : dictGet orig p.1 = some p.2) :
    mergeSection orig u p = u := by
  simp only [mergeSection, h]
  split
  · rfl
  · split
    · rfl
    · exact replaceAll_self u p.2

lemma foldl_mergeSection_self (orig : List (List Char × List Char))
    (l : List (List Char × List Char)) (u : List Char)
    (h : ∀ p ∈ l, dictGet orig p.1 = some p.2) :
    l.foldl (mergeSection orig) u = u := by
  induction l generalizing u with
  | nil => rfl
  | cons a t ih =>
    rw [List.foldl_cons, mergeSection_self orig u a (h a (by simp))]
    exact ih u (fun p hp => h p (by simp [hp]))

/-! ## Job storage paths (`src/docwriter/storage.py`)

Fallible Python methods (`raise ValueError`) are modelled with
`Except String`. -/

/-- `s.strip(ch)` for a single strip character. -/
def stripChar (ch : Char) (s : List Char) : List Char :=
  ((s.dropWhile (· = ch)).reverse.dropWhile (· = ch)).reverse

/-- `s.split(ch)` (Python `str.split` with an explicit separator:
`"".split("/") = [""]`, separators at the ends produce empty pieces). -/
def splitChar (ch : Char) : List Char → List (List Char)
  | [] => [[]]
  | c :: rest =>
    if c = ch then [] :: splitChar ch rest
    else
      match splitChar ch rest with
      | [] => [[c]]
      | h :: t => (c :: h) :: t

/-- `"/".join(comps)`. -/
def joinSlash : List (List Char) → List Char
  | [] => []
  | [c] => c
  | c :: rest => c ++ '/' :: joinSlash rest

/-- The component loop of `posixpath.normpath`, specialised to relative
paths (the callers strip leading slashes first, so `initial_slashes` is
false).  `acc` is `new_comps`. -/
def normpathComps : List (List Char) → List (List Char) → List (List Char)
  | [], acc => acc
  | comp :: rest, acc =>
    if comp = [] ∨ comp = ['.'] then normpathComps rest acc
    else if comp ≠ ['.', '.'] ∨ acc = [] ∨ acc.getLast? = some ['.', '.'] then
      normpathComps rest (acc ++ [comp])
    else normpathComps rest acc.dropLast

/-- `posixpath.normpath(path)` for a path with no leading slash. -/
def pyNormpathRel (s : List Char) : List Char :=
  let ncomps := normpathComps (splitChar '/' s) []
  let joined := joinSlash ncomps
  if joined = [] then ['.'] else joined

namespace JobStoragePaths

/-- `JobStoragePaths._sanitize_segment(segment)`. -/
def sanitize_segment (seg : List Char) : Except String (List Char) :=
  let s := stripChar '/' (pyStrip seg)
  if s = [] then .error "Segment cannot be empty"
  else if (splitChar '/' s).any (fun part => part = ['.', '.'] ∨ part = ['.']) then
    .error "Segment cannot contain relative path navigation"
  else .ok s

/-- `JobStoragePaths.root`: `jobs/<user_id>/<job_id>` over sanitized ids. -/
def root (user job : List Char) : Except String (List Char) := do
  let u ← sanitize_segment user
  let j ← sanitize_segment job
  pure ("jobs/".toList ++ u ++ '/' :: j)

/-- `JobStoragePaths._normalize_relative(relative)`. -/
def normalize_relative (rel : List Char) : Except String (List Char) :=
  let relS := pyStrip rel
  if relS = [] then .error "Relative path segment cannot be empty"
  else
    let cleaned := pyNormpathRel (stripChar '/' relS)
    if cleaned = [] ∨ cleaned = ['.'] then .error "Relative path resolves to empty"
    else if ("../".toList).isPrefixOf cleaned ∨ cleaned = ['.', '.'] then
      .error "Relative path cannot ascend from job root"
    else .ok cleaned

/-- `JobStoragePaths.relative(relative)`, i.e. `_join(relative)`: an empty
segment is dropped by the `if seg` filter (yielding the bare root), a
nonempty one is normalized and appended to the root. -/
def relative (user job rel : List Char) : Except String (List Char) := do
  let rt ← root user job
  if rel = [] then pure rt
  else
    let c ← normalize_relative rel
    pure (rt ++ '/' :: c)

end JobStoragePaths

/-! ### Lemmas about path normalization -/

/-- A path component that cannot change the directory the path points into. -/
def goodComp (c : List Char) : Prop :=
  c ≠ [] ∧ c ≠ ['.'] ∧ c ≠ ['.', '.'] ∧ ('/' : Char) ∉ c

lemma splitChar_no_sep (ch : Char) (s : List Char) :
    ∀ p ∈ splitChar ch s, ch ∉ p := by
  induction s with
  | nil => intro p hp; simp [splitChar] at hp; simp [hp]
  | cons c rest ih =>
    intro p hp
    rw [splitChar] at hp
    split at hp
    · rcases List.mem_cons.mp hp with h | h
      · simp [h]
      · exact ih p h
    · next hne =>
      rcases hsp : splitChar ch rest with _ | ⟨h0, t⟩
      · rw [hsp] at hp
        simp at hp
        subst hp
        simp
        exact fun h => hne h.symm
      · rw [hsp] at hp
        rcases List.mem_cons.mp hp with h | h
        · subst h
          intro hmem
          rcases List.mem_cons.mp hmem with h | h
          · exact hne h.symm
          · exact ih h0 (by simp [hsp]) h
        · exact ih p (by simp [hsp, h])

/-- Invariant of the `normpath` loop: every accumulated component is a
nonempty, dot-free, slash-free piece, and all `..` components form a
prefix of the accumulator. -/
lemma normpathComps_spec (comps : List (List Char)) (acc : List (List Char))
    (hcomps : ∀ p ∈ comps, ('/' : Char) ∉ p)
    (hacc : ∀ c ∈ acc, c ≠ [] ∧ c ≠ ['.'] ∧ ('/' : Char) ∉ c)
    (hdd : ∃ k rest, acc = List.replicate k ['.', '.'] ++ rest ∧ ['.', '.'] ∉ rest) :
    (∀ c ∈ normpathComps comps acc, c ≠ [] ∧ c ≠ ['.'] ∧ ('/' : Char) ∉ c) ∧
      ∃ k rest, normpathComps comps acc = List.replicate k ['.', '.'] ++ rest ∧
        ['.', '.'] ∉ rest := by
  induction comps generalizing acc with
  | nil => exact ⟨hacc, hdd⟩
  | cons comp rest ih =>
    rw [normpathComps]
    split
    · exact ih acc (fun p hp => hcomps p (List.mem_cons_of_mem _ hp)) hacc hdd
    · next hne =>
      push_neg at hne
      split
      · next hpush =>
        refine ih _ (fun p hp => hcomps p (List.mem_cons_of_mem _ hp)) ?_ ?_
        · intro c hc
          rcases List.mem_append.mp hc with h | h
          · exact hacc c h
          · simp at h
            subst h
            exact ⟨hne.1, hne.2, hcomps _ (List.mem_cons_self _ _)⟩
        · obtain ⟨k, r, hkr, hnr⟩ := hdd
          by_cases hcdd : comp = ['.', '.']
          · subst hcdd
            have hr : r = [] := by
              rcases hpush with h | h | h
              · exact absurd rfl h
              · rw [h] at hkr
                exact (List.append_eq_nil.mp hkr.symm).2
              · by_contra hrne
                have hlast : acc.getLast? = r.getLast? := by
                  rw [hkr]
                  exact List.getLast?_append_of_ne_nil _ hrne
                rw [h] at hlast
                exact hnr (List.mem_of_mem_getLast? (by rw [← hlast]; rfl))
            subst hr
            rw [List.append_nil] at hkr
            refine ⟨k + 1, [], ?_, by simp⟩
            rw [hkr, List.replicate_succ']
            simp
          · refine ⟨k, r ++ [comp], ?_, ?_⟩
            · rw [hkr]; simp
            · intro hmem
              rcases List.mem_append.mp hmem with h | h
              · exact hnr h
              · simp at h; exact hcdd h.symm
      · next hnpush =>
        push_neg at hnpush
        obtain ⟨-, hane, hlast⟩ := hnpush
        refine ih _ (fun p hp => hcomps p (List.mem_cons_of_mem _ hp)) ?_ ?_
        · intro c hc
          exact hacc c (List.dropLast_subset _ hc)
        · obtain ⟨k, r, hkr, hnr⟩ := hdd
          have hr : r ≠ [] := by
            intro hre
            subst hre
            rw [List.append_nil] at hkr
            rcases Nat.eq_zero_or_pos k with hk | hk
            · subst hk; simp at hkr; exact hane hkr
            · apply hlast
              rw [hkr]
              have : k = (k - 1) + 1 := by omega
              rw [this, List.replicate_succ', List.getLast?_append_of_ne_nil _ (by simp)]
              rfl
          refine ⟨k, r.dropLast, ?_, fun hmem => hnr (List.dropLast_subset _ hmem)⟩
          rw [hkr, List.dropLast_append_of_ne_nil _ hr]

lemma joinSlash_cons_ne (c : List Char) (rest : List (List Char)) (h : rest ≠ []) :
    joinSlash (c :: rest) = c ++ '/' :: joinSlash rest := by
  cases rest with
  | nil => exact absurd rfl h
  | cons a t => rfl

/-- A successful `_normalize_relative` yields a nonempty join of components
none of which is empty, `"."`, `".."`, or slash-bearing. -/
lemma normalize_relative_ok (rel c : List Char)
    (h : JobStoragePaths.normalize_relative rel = .ok c) :
    ∃ cs, cs ≠ [] ∧ (∀ p ∈ cs, goodComp p) ∧ c = joinSlash cs := by
  unfold JobStoragePaths.normalize_relative at h
  dsimp only [] at h
  split at h
  · exact absurd h (by simp)
  · simp only [pyNormpathRel] at h
    split at h
    · exact absurd h (by simp)
    · next hjne =>
      split at h
      · exact absurd h (by simp)
      · next hok =>
        push_neg at hok
        split at h
        · exact absurd h (by simp)
        · next hasc =>
          push_neg at hasc
          injection h with h
          subst h
          set s := stripChar '/' (pyStrip rel) with hs
          obtain ⟨hgood, k, r, hout, hnr⟩ :=
            normpathComps_spec (splitChar '/' s) [] (splitChar_no_sep '/' s)
              (by simp) ⟨0, [], by simp, by simp⟩
          set out := normpathComps (splitChar '/' s) [] with hdef
          rcases Nat.eq_zero_or_pos k with hk | hk
          · subst hk
            simp only [List.replicate, List.nil_append] at hout
            refine ⟨out, ?_, ?_, rfl⟩
            · intro ho
              rw [ho] at hjne
              exact hjne rfl
            · intro p hp
              obtain ⟨h1, h2, h3⟩ := hgood p hp
              refine ⟨h1, h2, ?_, h3⟩
              intro hdd2
              subst hdd2
              rw [hout] at hp
              exact hnr hp
          · exfalso
            have hk1 : k = (k - 1) + 1 := by omega
            rw [hk1, List.replicate_succ, List.cons_append] at hout
            rcases hout2 : List.replicate (k - 1) ['.', '.'] ++ r with _ | ⟨o2, os⟩
            · rw [hout2] at hout
              rw [hout] at hasc
              exact hasc.2 (by simp [joinSlash])
            · rw [hout2] at hout
              rw [hout, joinSlash_cons_ne _ _ (by simp)] at hasc
              refine hasc.1 ?_
              apply List.isPrefixOf_iff_prefix.mpr
              exact ⟨joinSlash (o2 :: os), rfl⟩

/-! ## Review batch planning (`_plan_review_batches`, `src/docwriter/stages/core.py`)

Section ids are Lean `String`s.  The prompt-size estimate
`_estimate_tokens(_build_batch_context(candidate, ...))` calls an external
tokenizer, so it is abstracted as a parameter `tok : List String → Nat`
mapping a candidate batch to its estimated token count. -/

/-- One iteration of the `for sid in remaining` loop of
`_plan_review_batches`.  The state is `(batches, current)`.  The trailing
`if len(current) >= max_batch` flush is folded into each branch, applied
to the branch's updated `current` (`[sid]` of length 1 after a flush,
`candidate` otherwise). -/
def planStep (tok : List String → Nat) (maxB maxT : Int)
    (st : List (List String) × List String) (sid : String) :
    List (List String) × List String :=
  let current := st.2
  let batches := st.1
  let candidate := current ++ [sid]
  if current ≠ [] ∧ ((tok candidate : Int) > maxT ∨ (candidate.length : Int) > maxB) then
    if (1 : Int) ≥ maxB then (batches ++ [current] ++ [[sid]], [])
    else (batches ++ [current], [sid])
  else
    if (candidate.length : Int) ≥ maxB then (batches ++ [candidate], [])
    else (batches, candidate)

/-- `_plan_review_batches(ordered_section_ids, completed_ids, ..., settings)`.
`int(x or 1)` maps a zero setting to 1 before the `max(1, ...)` clamp. -/
def plan_review_batches (ordered completed : List String)
    (tok : List String → Nat) (review_batch_size review_max_prompt_tokens : Int) :
    List (List String) :=
  let max_batch : Int := max 1 (if review_batch_size = 0 then 1 else review_batch_size)
  let max_tokens : Int :=
    max 1 (if review_max_prompt_tokens = 0 then 1 else review_max_prompt_tokens)
  let remaining := ordered.filter (fun sid => !completed.contains sid)
  let st := remaining.foldl (planStep tok max_batch max_tokens) ([], [])
  if st.2 ≠ [] then st.1 ++ [st.2] else st.1

lemma planStep_eq (tok : List String → Nat) (maxB maxT : Int)
    (B : List (List String)) (cur : List String) (x : String) :
    planStep tok maxB maxT (B, cur) x =
      if cur ≠ [] ∧ ((tok (cur ++ [x]) : Int) > maxT ∨ ((cur ++ [x]).length : Int) > maxB)
      then
        if (1 : Int) ≥ maxB then (B ++ [cur] ++ [[x]], []) else (B ++ [cur], [x])
      else
        if ((cur ++ [x]).length : Int) ≥ maxB then (B ++ [cur ++ [x]], [])
        else (B, cur ++ [x]) := rfl

lemma planFold_join (tok : List String → Nat) (maxB maxT : Int) :
    ∀ (l : List String) (B : List (List String)) (cur : List String),
      (l.foldl (planStep tok maxB maxT) (B, cur)).1.join ++
          (l.foldl (planStep tok maxB maxT) (B, cur)).2 =
        B.join ++ (cur ++ l) := by
  intro l
  induction l with
  | nil => simp
  | cons x xs ih =>
    intro B cur
    rw [List.foldl_cons, planStep_eq]
    by_cases hfl : cur ≠ [] ∧
        ((tok (cur ++ [x]) : Int) > maxT ∨ ((cur ++ [x]).length : Int) > maxB)
    · rw [if_pos hfl]
      by_cases hone : (1 : Int) ≥ maxB
      · rw [if_pos hone, ih]; simp
      · rw [if_neg hone, ih]; simp
    · rw [if_neg hfl]
      by_cases hge : ((cur ++ [x]).length : Int) ≥ maxB
      · rw [if_pos hge, ih]; simp
      · rw [if_neg hge, ih]; simp

lemma planFold_sizes (tok : List String → Nat) (maxB maxT : Int) (hmb : 1 ≤ maxB) :
    ∀ (l : List String) (B : List (List String)) (cur : List String),
      (cur.length : Int) < maxB →
      (∀ b ∈ B, (b.length : Int) ≤ maxB) →
      ((((l.foldl (planStep tok maxB maxT) (B, cur)).2).length : Int) < maxB ∧
        ∀ b ∈ (l.foldl (planStep tok maxB maxT) (B, cur)).1, (b.length : Int) ≤ maxB) := by
  intro l
  induction l with
  | nil => intro B cur hc hB; exact ⟨hc, hB⟩
  | cons x xs ih =>
    intro B cur hc hB
    rw [List.foldl_cons, planStep_eq]
    by_cases hfl : cur ≠ [] ∧
        ((tok (cur ++ [x]) : Int) > maxT ∨ ((cur ++ [x]).length : Int) > maxB)
    · rw [if_pos hfl]
      by_cases hone : (1 : Int) ≥ maxB
      · rw [if_pos hone]
        apply ih
        · simp; omega
        · intro b hb
          simp only [List.append_assoc, List.mem_append] at hb
          rcases hb with hb | hb
          · exact hB b hb
          · simp at hb
            rcases hb with hb | hb
            · subst hb; omega
            · subst hb; simp; omega
      · rw [if_neg hone]
        apply ih
        · simp; omega
        · intro b hb
          rcases List.mem_append.mp hb with hb | hb
          · exact hB b hb
          · simp at hb; subst hb; omega
    · rw [if_neg hfl]
      by_cases hge : ((cur ++ [x]).length : Int) ≥ maxB
      · rw [if_pos hge]
        apply ih
        · simp; omega
        · intro b hb
          rcases List.mem_append.mp hb with hb | hb
          · exact hB b hb
          · simp at hb
            subst hb
            simp
            omega
      · rw [if_neg hge]
        apply ih
        · push_neg at hge
          exact hge
        · exact hB

lemma planFold_mem_mono (tok : List String → Nat) (maxB maxT : Int) :
    ∀ (l : List String) (B : List (List String)) (cur : List String) (b : List String),
      b ∈ B → b ∈ (l.foldl (planStep tok maxB maxT) (B, cur)).1 := by
  intro l
  induction l with
  | nil => intro B cur b hb; exact hb
  | cons x xs ih =>
    intro B cur b hb
    rw [List.foldl_cons, planStep_eq]
    by_cases hfl : cur ≠ [] ∧
        ((tok (cur ++ [x]) : Int) > maxT ∨ ((cur ++ [x]).length : Int) > maxB)
    · rw [if_pos hfl]
      by_cases hone : (1 : Int) ≥ maxB
      · rw [if_pos hone]; exact ih _ _ b (by simp [hb])
      · rw [if_neg hone]; exact ih _ _ b (by simp [hb])
    · rw [if_neg hfl]
      by_cases hge : ((cur ++ [x]).length : Int) ≥ maxB
      · rw [if_pos hge]; exact ih _ _ b (by simp [hb])
      · rw [if_neg hge]; exact ih _ _ b hb

lemma planFold_singleton (tok : List String → Nat) (maxB maxT : Int)
    (h1 : ∀ l x, tok l ≤ tok (l ++ [x]))
    (h2 : ∀ l x, tok [x] ≤ tok (l ++ [x])) :
    ∀ (l : List String) (B : List (List String)) (cur : List String) (sid : String),
      (tok [sid] : Int) > maxT →
      (([sid] ∈ B ∨ cur = [sid]) ∨ sid ∈ l) →
      ([sid] ∈ (l.foldl (planStep tok maxB maxT) (B, cur)).1 ∨
        (l.foldl (planStep tok maxB maxT) (B, cur)).2 = [sid]) := by
  intro l
  induction l with
  | nil =>
    intro B cur sid _ hsrc
    rcases hsrc with (hb | hc) | hmem
    · exact Or.inl hb
    · exact Or.inr hc
    · simp at hmem
  | cons x xs ih =>
    intro B cur sid hbig hsrc
    rw [List.foldl_cons, planStep_eq]
    have hxs : sid ∈ (x :: xs) → sid = x ∨ sid ∈ xs := by
      intro h; exact List.mem_cons.mp h
    by_cases hfl : cur ≠ [] ∧
        ((tok (cur ++ [x]) : Int) > maxT ∨ ((cur ++ [x]).length : Int) > maxB)
    · rw [if_pos hfl]
      by_cases hone : (1 : Int) ≥ maxB
      · rw [if_pos hone]
        apply ih _ _ sid hbig
        rcases hsrc with (hb | hc) | hmem
        · exact Or.inl (Or.inl (by simp [hb]))
        · exact Or.inl (Or.inl (by simp [hc]))
        · rcases hxs hmem with hx | hx
          · exact Or.inl (Or.inl (by simp [hx]))
          · exact Or.inr hx
      · rw [if_neg hone]
        apply ih _ _ sid hbig
        rcases hsrc with (hb | hc) | hmem
        · exact Or.inl (Or.inl (by simp [hb]))
        · exact Or.inl (Or.inl (by simp [hc]))
        · rcases hxs hmem with hx | hx
          · exact Or.inl (Or.inr (by rw [hx]))
          · exact Or.inr hx
    · -- no flush: the candidate stayed within limits, so neither `cur` nor
      -- `x` can be an oversized singleton unless `cur` is empty
      push_neg at hfl
      have hcur_not : cur ≠ [sid] := by
        intro hc
        subst hc
        have := (hfl (by simp)).1
        have hmono := h1 [sid] x
        omega
      rw [if_neg (by push_neg; exact hfl)]
      by_cases hge : ((cur ++ [x]).length : Int) ≥ maxB
      · rw [if_pos hge]
        apply ih _ _ sid hbig
        rcases hsrc with (hb | hc) | hmem
        · exact Or.inl (Or.inl (by simp [hb]))
        · exact absurd hc hcur_not
        · rcases hxs hmem with hx | hx
          · subst hx
            have hcur_nil : cur = [] := by
              by_contra hne
              have := (hfl hne).1
              have hmono := h2 cur sid
              omega
            subst hcur_nil
            exact Or.inl (Or.inl (by simp))
          · exact Or.inr hx
      · rw [if_neg hge]
        apply ih _ _ sid hbig
        rcases hsrc with (hb | hc) | hmem
        · exact Or.inl (Or.inl hb)
        · exact absurd hc hcur_not
        · rcases hxs hmem with hx | hx
          · subst hx
            have hcur_nil : cur = [] := by
              by_contra hne
              have := (hfl hne).1
              have hmono := h2 cur sid
              omega
            subst hcur_nil
            exact Or.inl (Or.inr (by simp))
          · exact Or.inr hx

/-! ## Rewrite stage (`process_rewrite`, `src/docwriter/stages/core.py`)

The Service-Bus queues a stage can enqueue to. -/

inductive Queue where
  | review_general
  | review_style
  | review_cohesion
  | review_summary
  | verify
  | rewrite
  | diagram_prep
  | diagram_render
  | finalize_ready
deriving DecidableEq, Repr

/-- The payload fields of an outbound rewrite-stage message that the
specification talks about. -/
structure RewriteMsg where
  requires_rewrite : Bool
  rewritten_sections : List String
  placeholder_sections : List String
  cycles : Int
  expected_cycles : Int
  cycles_completed : Int
  cycles_remaining : Int
deriving DecidableEq, Repr

inductive RewriteOutcome where
  | requeue (msg : RewriteMsg)
  | complete (q : Queue) (msg : RewriteMsg)
deriving DecidableEq, Repr

/-- The tail of `process_rewrite` reached when no affected section
remains: bump the completed count (capped), re-apply the cycle state,
clear `placeholder_sections`, keep the accumulated `rewritten_sections`,
and route to `review_general` or `diagram_prep`. -/
def rewriteCompletionTail (state : CycleState) (rewritten : List String) :
    RewriteOutcome :=
  let next_completed := min state.requested (state.completed + 1)
  let next : CycleState := ⟨state.requested, next_completed⟩
  let msg : RewriteMsg :=
    { requires_rewrite := false
      rewritten_sections := rewritten
      placeholder_sections := []
      cycles := next.requested
      expected_cycles := next.requested
      cycles_completed := next.completed
      cycles_remaining := next.remaining }
  if next.completed < next.requested then .complete .review_general msg
  else .complete .diagram_prep msg

/-- `process_rewrite(data)` after `ensure_cycle_state` has produced
`state`.  `affected` is the computed affected set (contradiction, style
and cohesion section ids plus the inbound `placeholder_sections`),
`known` the outline's section ids (a batched id missing from the outline
is skipped by `continue` and never marked rewritten), `wbs` the
`write_batch_size` setting (`int(x or 5)` then `max(1, ...)`).  Blob and
agent I/O along the way carry no information the routing depends on and
is elided. -/
def process_rewrite (state : CycleState) (requires_rewrite : Bool)
    (rewritten0 affected known placeholders : List String) (wbs : Int) :
    RewriteOutcome :=
  if requires_rewrite then
    let remaining := affected.filter (fun sid => !rewritten0.contains sid)
    let batch := remaining.take (max 1 (if wbs = 0 then 5 else wbs)).toNat
    let rewritten2 := rewritten0 ++ batch.filter (fun sid => known.contains sid)
    let remaining_after := affected.filter (fun sid => !rewritten2.contains sid)
    if remaining_after ≠ [] then
      .requeue
        { requires_rewrite := true
          rewritten_sections := rewritten2
          placeholder_sections := placeholders
          cycles := state.requested
          expected_cycles := state.requested
          cycles_completed := state.completed
          cycles_remaining := state.remaining }
    else rewriteCompletionTail state rewritten2
  else rewriteCompletionTail state rewritten0

lemma rewriteCompletionTail_spec (state : CycleState) (rewritten : List String)
    (q : Queue) (msg : RewriteMsg)
    (h : rewriteCompletionTail state rewritten = .complete q msg) :
    msg = { requires_rewrite := false
            rewritten_sections := rewritten
            placeholder_sections := []
            cycles := state.requested
            expected_cycles := state.requested
            cycles_completed := min state.requested (state.completed + 1)
            cycles_remaining :=
              max 0 (state.requested - min state.requested (state.completed + 1)) } ∧
      q = (if min state.requested (state.completed + 1) < state.requested
           then Queue.review_general else Queue.diagram_prep) := by
  unfold rewriteCompletionTail at h
  dsimp only [CycleState.remaining] at h
  split at h
  · next hlt =>
    injection h with hq hmsg
    exact ⟨hmsg.symm, by rw [if_pos hlt, hq]⟩
  · next hlt =>
    injection h with hq hmsg
    exact ⟨hmsg.symm, by rw [if_neg hlt, hq]⟩

/-! ## Effect traces for the review and diagram-prep stages

Stages interact with the outside world through queue sends, status
events, agent calls and blob writes; a stage run is modelled as the list
of these effects in program order. -/

inductive Effect where
  | stageEvent (stage event : String)
  | statusEvent (stage : String)
  | send (q : Queue)
  | agentCall
  | artifactWrite (path : String)
  | sourceWrite
  | diagramFailed (issues : List (List Char))
deriving DecidableEq, Repr

/-- The effects of the common completion tail of `process_review_general`
(persist progress, `REVIEW_QUEUED`, forward to the style queue, emit
`REVIEW_IN_PROGRESS`). -/
def reviewCompletionTailEffects : List Effect :=
  [.artifactWrite "review_progress.json", .stageEvent "REVIEW" "QUEUED",
   .send .review_style, .statusEvent "REVIEW_IN_PROGRESS"]

/-- `process_review_general(data)` as an effect trace, after
`ensure_cycle_state` produced `state`.  Oracles: `progressDone` is the
persisted `progress["general"]["done"]` flag, `sectionsEmpty` whether the
draft has no marked sections, `batches` the planned batches, and
`remainingAfter` whether sections remain un-reviewed after the agent's
batch reply (the reply is external).  The guard `_ensure_not_exhausted`
publishes `DIAGRAM QUEUED`, enqueues `diagram_prep` and returns before
any review work when `completed >= requested`. -/
def process_review_general (state : CycleState) (progressDone sectionsEmpty : Bool)
    (batches : List (List String)) (remainingAfter : Bool) : List Effect :=
  if state.requested ≤ state.completed then
    [.stageEvent "DIAGRAM" "QUEUED", .send .diagram_prep]
  else if progressDone then
    [.stageEvent "REVIEW" "QUEUED", .send .review_style]
  else
    .stageEvent "REVIEW" "START" ::
      (if sectionsEmpty then
        [.agentCall, .artifactWrite "review.json"] ++ reviewCompletionTailEffects
      else if batches = [] then reviewCompletionTailEffects
      else
        .agentCall ::
          (if remainingAfter then
            [.stageEvent "REVIEW" "QUEUED", .artifactWrite "review_progress.json",
             .send .review_general, .statusEvent "REVIEW_IN_PROGRESS"]
          else .artifactWrite "review.json" :: reviewCompletionTailEffects))

/-! ## Diagram preparation (`src/docwriter/stages/diagram_prep.py`) -/

/-- `"\n".join(lines)` and friends. -/
def joinWith (sep : Char) : List (List Char) → List Char
  | [] => []
  | [c] => c
  | c :: rest => c ++ sep :: joinWith sep rest

/-- Case-insensitive removal of every occurrence of the (lowercase,
meta-character-free) literal `pat`, i.e.
`re.sub(pat, "", s, flags=re.IGNORECASE)`. -/
def removeCIGo : Nat → List Char → List Char → List Char
  | _, [], _ => []
  | 0, s, _ => s
  | fuel + 1, c :: rest, pat =>
    if pat ≠ [] ∧ pat.isPrefixOf (lowerAll (List.take pat.length (c :: rest))) then
      removeCIGo fuel ((c :: rest).drop pat.length) pat
    else c :: removeCIGo fuel rest pat

def removeCI (s pat : List Char) : List Char := removeCIGo s.length s pat

/-- `line.strip()` starts with `'`, `//` or `#`. -/
def isCommentStart (stripped : List Char) : Bool :=
  (['\'']).isPrefixOf stripped || ("//".toList).isPrefixOf stripped ||
    (['#']).isPrefixOf stripped

/-- The line loop of `_sanitize_source`: drops fence lines and
`diagram_id` comment lines, skips leading blanks until a line is kept,
and reports whether a `@startuml` line was seen. -/
def sanitizeLoop : List (List Char) → Bool → (List (List Char) × Bool)
  | [], started => ([], started)
  | line :: rest, started =>
    let stripped := pyStrip line
    if ("```".toList).isPrefixOf stripped then sanitizeLoop rest started
    else if !started then
      if ("@startuml".toList).isPrefixOf (lowerAll stripped) then
        let (out, st) := sanitizeLoop rest true
        (line :: out, st)
      else if isCommentStart stripped ∧
          containsSub (lowerAll stripped) ("diagram_id".toList) then
        sanitizeLoop rest false
      else if stripped = [] then sanitizeLoop rest false
      else
        let (out, st) := sanitizeLoop rest false
        (line :: out, st)
    else
      if isCommentStart stripped ∧
          containsSub (lowerAll stripped) ("diagram_id".toList) then
        sanitizeLoop rest true
      else
        let (out, st) := sanitizeLoop rest true
        (line :: out, st)

/-- `_sanitize_source(body)`. -/
def sanitize_source (body : List Char) : List Char :=
  let raw := replaceAll (replaceAll (replaceAll body ('\r' :: '\n' :: []) ['\n'])
    ['\r'] ['\n']) ('\\' :: 'n' :: []) ['\n']
  let st := sanitizeLoop (splitChar '\n' raw) false
  let sanitized :=
    if !st.2 then ("@startuml".toList) :: st.1 ++ ["@enduml".toList] else st.1
  let text := joinWith '\n' sanitized
  if !containsSub (lowerAll text) ("@enduml".toList) then
    (if text.getLast? = some '\n' then text else text ++ ['\n']) ++ "@enduml".toList
  else text

/-- `_validate_plantuml_source(source)`: the issue list, in program
order. -/
def validate_plantuml_source (source : List Char) : List (List Char) :=
  let lower := lowerAll source
  (if !containsSub lower ("@startuml".toList) then ["missing @startuml".toList] else []) ++
  (if !containsSub lower ("@enduml".toList) then ["missing @enduml".toList] else []) ++
  (if containsSub source ("```".toList) then
    ["contains markdown code fences inside PlantUML".toList] else []) ++
  (if containsSub lower ("@startmermaid".toList) ||
      containsSub lower ("```mermaid".toList) then
    ["contains Mermaid instead of PlantUML".toList] else []) ++
  (if pyStrip (removeCI (removeCI source ("@startuml".toList)) ("@enduml".toList)) = []
   then ["empty diagram body".toList] else [])

/-- The per-diagram loop of `process_diagram_prep` (over the extracted
bodies, in document order): the first invalid diagram publishes
`DIAGRAM_FAILED` with the issue list and aborts the stage; valid
diagrams write their `.puml` source blob; when all diagrams are valid
the render request is sent and `DIAGRAM QUEUED` published. -/
def diagPrepLoop : List (List Char) → List Effect
  | [] => [.send .diagram_render, .stageEvent "DIAGRAM" "QUEUED"]
  | body :: rest =>
    let issues := validate_plantuml_source (sanitize_source body)
    if issues ≠ [] then [.diagramFailed issues]
    else .sourceWrite :: diagPrepLoop rest

/-- `process_diagram_prep(data)` as an effect trace over the extracted
diagram bodies (`_extract_diagrams` is regex-driven and is abstracted as
the input list). -/
def process_diagram_prep (diagrams : List (List Char)) : List Effect :=
  if diagrams = [] then
    [.send .finalize_ready, .stageEvent "DIAGRAM" "SKIPPED",
     .stageEvent "FINALIZE" "QUEUED"]
  else diagPrepLoop diagrams

lemma diagPrepLoop_invalid (diagrams : List (List Char))
    (h : ∃ b ∈ diagrams, validate_plantuml_source (sanitize_source b) ≠ []) :
    (∃ b ∈ diagrams, validate_plantuml_source (sanitize_source b) ≠ [] ∧
      Effect.diagramFailed (validate_plantuml_source (sanitize_source b)) ∈
        diagPrepLoop diagrams) ∧
    Effect.send .diagram_render ∉ diagPrepLoop diagrams ∧
    Effect.send .finalize_ready ∉ diagPrepLoop diagrams := by
  induction diagrams with
  | nil => simp at h
  | cons body rest ih =>
    rw [diagPrepLoop]
    by_cases hv : validate_plantuml_source (sanitize_source body) ≠ []
    · rw [if_pos hv]
      refine ⟨⟨body, by simp, hv, by simp⟩, by simp, by simp⟩
    · rw [if_neg hv]
      push_neg at hv
      have hrest : ∃ b ∈ rest, validate_plantuml_source (sanitize_source b) ≠ [] := by
        rcases h with ⟨b, hb, hbv⟩
        rcases List.mem_cons.mp hb with rfl | hb
        · exact absurd hv hbv
        · exact ⟨b, hb, hbv⟩
      obtain ⟨⟨b, hb, hbv, hbin⟩, hnr, hnf⟩ := ih hrest
      refine ⟨⟨b, by simp [hb], hbv, by simp [hbin]⟩, ?_, ?_⟩
      · simp
        exact hnr
      · simp
        exact hnf

/-! ## Dependency graph (`src/docwriter/graph.py`)

`_section_sort_key` splits an id into digit and non-digit runs
(`SECTION_TOKEN_RE = \d+|[^\d]+`) and tags them so that Python's tuple
comparison orders `(0, int)` runs before `(1, str)` runs, with the node's
insertion index as a `(2, idx)` tie-breaker. -/

inductive SortTok where
  | num (n : Nat)
  | str (s : List Char)
  | fallback (i : Nat)
deriving DecidableEq, Repr

/-- Python string comparison (by code point, lexicographic). -/
def strLtB : List Char → List Char → Bool
  | [], [] => false
  | [], _ :: _ => true
  | _ :: _, [] => false
  | a :: as, b :: bs =>
    if a.toNat < b.toNat then true
    else if b.toNat < a.toNat then false
    else strLtB as bs

/-- Python comparison of the tagged key elements. -/
def tokLtB : SortTok → SortTok → Bool
  | .num a, .num b => a < b
  | .num _, .str _ => true
  | .num _, .fallback _ => true
  | .str _, .num _ => false
  | .str a, .str b => strLtB a b
  | .str _, .fallback _ => true
  | .fallback _, .num _ => false
  | .fallback _, .str _ => false
  | .fallback a, .fallback b => a < b

/-- Python tuple comparison of keys (lexicographic, shorter prefix first). -/
def keyLtB : List SortTok → List SortTok → Bool
  | [], [] => false
  | [], _ :: _ => true
  | _ :: _, [] => false
  | a :: as, b :: bs =>
    if tokLtB a b then true
    else if tokLtB b a then false
    else keyLtB as bs

/-- Comparison of heap entries `(key, node_name)`. -/
def entryLtB (k1 : List SortTok) (n1 : String) (k2 : List SortTok) (n2 : String) :
    Bool :=
  keyLtB k1 k2 || (!keyLtB k2 k1 && strLtB n1.toList n2.toList)

/-- `int(token)` for an ASCII digit run (Python also accepts Unicode
digits in `str.isdigit`, on which `int(...)` can raise; no claim depends
on those). -/
def natOfDigits (run : List Char) : Nat :=
  run.foldl (fun n c => n * 10 + (c.toNat - 48)) 0

/-- `_section_sort_key(section_id, fallback_index)`. -/
def sectionSortKey (sid : String) (fallbackIdx : Nat) : List SortTok :=
  ((sid.toList).groupBy (fun a b => a.isDigit == b.isDigit)).map
      (fun run => if run.all Char.isDigit then .num (natOfDigits run) else .str run)
    ++ [.fallback fallbackIdx]

/-- An outline section: `str(s.get("id"))` and its `dependencies` list
(sections with `id = None` are dropped before graph construction). -/
structure Section where
  id : String
  dependencies : List String
deriving DecidableEq, Repr

/-- `DependencyGraph` data: insertion-ordered deduplicated nodes and the
edges whose endpoints are both known (`adj`/`rev` are derived sets). -/
structure Graph where
  nodes : List String
  edges : List (String × String)
deriving DecidableEq, Repr

/-- Keep the first occurrence of each id (the `if sid in self.node_index:
continue` loop in `DependencyGraph.__init__`); `seen` is the set of ids
already registered. -/
def dedupKeepFirstGo : List String → List String → List String
  | [], _ => []
  | x :: xs, seen =>
    if seen.contains x then dedupKeepFirstGo xs seen
    else x :: dedupKeepFirstGo xs (x :: seen)

def dedupKeepFirst (l : List String) : List String := dedupKeepFirstGo l []

/-- `build_dependency_graph(outline)` followed by `DependencyGraph.__init__`:
nodes are the outline ids (first occurrence kept), edges `(dep, sid)`
restricted to known endpoints.  `adj`/`rev` are Python sets, so duplicate
edges are harmless; membership in `edges` is what the algorithm consults. -/
def build_dependency_graph (outline : List Section) : Graph :=
  let nodes := dedupKeepFirst (outline.map (fun s => s.id))
  let rawEdges := outline.foldr
    (fun s acc => (s.dependencies.map (fun d => (d, s.id))) ++ acc) []
  let edges := rawEdges.filter
    (fun e => nodes.contains e.1 && nodes.contains e.2)
  ⟨nodes, edges⟩

/-- `_ordering_key`: `node_index.get(sid, len(nodes))`, which is exactly
`List.indexOf` on the deduplicated node list. -/
def orderingKey (g : Graph) (sid : String) : List SortTok :=
  sectionSortKey sid (List.indexOf sid g.nodes)

/-- The minimum of a nonempty candidate list under the heap ordering
`(key, name)`; `heapq.heappop` returns exactly this element. -/
def pickMin (key : String → List SortTok) (x : String) (xs : List String) : String :=
  xs.foldl (fun best n => if entryLtB (key n) n (key best) best then n else best) x

/-- The nodes currently in the heap: not yet emitted, and every incoming
edge's source already emitted (a node is pushed exactly when its
in-degree counter reaches zero, and the counter counts precisely its
not-yet-emitted predecessors). -/
def readyNodes (g : Graph) (emitted : List String) : List String :=
  g.nodes.filter (fun v => !emitted.contains v &&
    g.edges.all (fun e => !(e.2 == v) || emitted.contains e.1))

/-- The pop loop of `topological_order`: each iteration pops the minimal
ready node and appends it to the order.  One unit of fuel per node
suffices because each iteration emits a distinct node. -/
def kahnLoop (g : Graph) (key : String → List SortTok) :
    Nat → List String → List String
  | 0, emitted => emitted
  | fuel + 1, emitted =>
    match readyNodes g emitted with
    | [] => emitted
    | x :: xs => kahnLoop g key fuel (emitted ++ [pickMin key x xs])

/-- `DependencyGraph.topological_order()`. -/
def topological_order (g : Graph) : Except String (List String) :=
  let order := kahnLoop g (orderingKey g) g.nodes.length []
  if order.length = g.nodes.length then .ok order
  else .error "Cycle detected in section dependencies"

/-- `u` reaches `v` along at most `fuel` edges. -/
def reachBool (g : Graph) : Nat → String → String → Bool
  | 0, u, v => u == v
  | fuel + 1, u, v =>
    u == v || g.edges.any (fun e => e.1 == u && reachBool g fuel e.2 v)

/-- The dependency relation contains a directed cycle: some edge closes a
path back to its own source.  `|nodes|` steps of fuel are enough because
a shortest closing path repeats no node. -/
def hasCycle (g : Graph) : Bool :=
  g.edges.any (fun e => reachBool g g.nodes.length e.2 e.1)

/-! ### Correctness of `topological_order` -/

lemma pickMin_mem (key : String → List SortTok) :
    ∀ (xs : List String) (x : String), pickMin key x xs ∈ x :: xs := by
  intro xs
  induction xs with
  | nil => intro x; simp [pickMin]
  | cons y ys ih =>
    intro x
    rw [pickMin, List.foldl_cons]
    rcases List.mem_cons.mp (ih (if entryLtB (key y) y (key x) x then y else x)) with h | h
    · rw [pickMin] at h
      rw [h]
      split <;> simp
    · rw [pickMin] at h
      simp [h]

lemma readyNodes_mem (g : Graph) (emitted : List String) (v : String)
    (h : v ∈ readyNodes g emitted) :
    v ∈ g.nodes ∧ v ∉ emitted ∧ ∀ e ∈ g.edges, e.2 = v → e.1 ∈ emitted := by
  rw [readyNodes] at h
  rw [List.mem_filter] at h
  obtain ⟨hnode, hcond⟩ := h
  rw [Bool.and_eq_true] at hcond
  refine ⟨hnode, ?_, ?_⟩
  · intro hmem
    have := hcond.1
    simp at this
    exact this hmem
  · intro e he hev
    have := (List.all_eq_true.mp hcond.2) e he
    rw [Bool.or_eq_true] at this
    rcases this with h2 | h2
    · simp [hev] at h2
    · simpa using h2

/-- The loop invariant: the emitted list is duplicate-free, contains only
graph nodes, and respects every edge whose target it already contains. -/
def KahnInv (g : Graph) (emitted : List String) : Prop :=
  emitted.Nodup ∧ (∀ a ∈ emitted, a ∈ g.nodes) ∧
    ∀ e ∈ g.edges, e.2 ∈ emitted →
      e.1 ∈ emitted ∧ List.indexOf e.1 emitted < List.indexOf e.2 emitted

lemma KahnInv_nil (g : Graph) : KahnInv g [] := by
  refine ⟨List.nodup_nil, by simp, by simp⟩

lemma KahnInv_step (g : Graph) (emitted : List String) (x : String)
    (hx : x ∈ readyNodes g emitted) (hinv : KahnInv g emitted) :
    KahnInv g (emitted ++ [x]) := by
  obtain ⟨hnode, hnotmem, hpred⟩ := readyNodes_mem g emitted x hx
  obtain ⟨hnd, hsub, hresp⟩ := hinv
  refine ⟨?_, ?_, ?_⟩
  · exact List.Nodup.append hnd (by simp) (by simpa using fun h => (hnotmem h).elim)
  · intro a ha
    rcases List.mem_append.mp ha with ha | ha
    · exact hsub a ha
    · simp at ha
      subst ha
      exact hnode
  · intro e he hev
    rcases List.mem_append.mp hev with hev | hev
    · obtain ⟨h1, h2⟩ := hresp e he hev
      refine ⟨List.mem_append.mpr (Or.inl h1), ?_⟩
      rw [List.indexOf_append_of_mem h1, List.indexOf_append_of_mem hev]
      exact h2
    · simp at hev
      have h1 : e.1 ∈ emitted := hpred e he hev
      refine ⟨List.mem_append.mpr (Or.inl h1), ?_⟩
      rw [List.indexOf_append_of_mem h1]
      have hx2 : e.2 ∉ emitted := hev ▸ hnotmem
      rw [List.indexOf_append_of_not_mem hx2, hev]
      have := List.indexOf_lt_length.mpr h1
      simp
      omega

lemma kahnLoop_spec (g : Graph) (key : String → List SortTok) :
    ∀ (fuel : Nat) (emitted : List String), KahnInv g emitted →
      KahnInv g (kahnLoop g key fuel emitted) ∧
        (g.nodes.length ≤ fuel + emitted.length →
          readyNodes g (kahnLoop g key fuel emitted) = []) := by
  intro fuel
  induction fuel with
  | zero =>
    intro emitted hinv
    refine ⟨hinv, ?_⟩
    intro hlen
    rw [kahnLoop]
    apply List.filter_eq_nil.mpr
    intro v hv
    have hperm : emitted.Perm g.nodes := by
      refine (List.subperm_of_subset hinv.1 fun a ha => hinv.2.1 a ha).perm_of_length_le ?_
      simpa using hlen
    have hvm : v ∈ emitted := hperm.mem_iff.mpr hv
    simp [hvm]
  | succ fuel ih =>
    intro emitted hinv
    rw [kahnLoop]
    rcases hready : readyNodes g emitted with _ | ⟨x, xs⟩
    · refine ⟨hinv, fun _ => hready⟩
    · have hpick : pickMin key x xs ∈ readyNodes g emitted := by
        rw [hready]
        exact pickMin_mem key xs x
      have hinv2 : KahnInv g (emitted ++ [pickMin key x xs]) :=
        KahnInv_step g emitted _ hpick hinv
      obtain ⟨ha, hb⟩ := ih (emitted ++ [pickMin key x xs]) hinv2
      refine ⟨ha, fun hlen => hb ?_⟩
      simp
      omega

lemma reachBool_refl (g : Graph) (fuel : Nat) (u : String) :
    reachBool g fuel u u = true := by
  cases fuel <;> simp [reachBool]

lemma reachBool_mono (g : Graph) :
    ∀ (fuel fuel2 : Nat) (u v : String), fuel ≤ fuel2 →
      reachBool g fuel u v = true → reachBool g fuel2 u v = true := by
  intro fuel
  induction fuel with
  | zero =>
    intro fuel2 u v _ h
    simp [reachBool] at h
    subst h
    exact reachBool_refl g fuel2 u
  | succ fuel ih =>
    intro fuel2 u v hle h
    rcases fuel2 with _ | fuel2
    · omega
    · rw [reachBool] at h ⊢
      rw [Bool.or_eq_true] at h ⊢
      rcases h with h | h
      · exact Or.inl h
      · right
        rw [List.any_eq_true] at h ⊢
        obtain ⟨e, he, hcond⟩ := h
        rw [Bool.and_eq_true] at hcond
        exact ⟨e, he, by
          rw [Bool.and_eq_true]
          exact ⟨hcond.1, ih fuel2 e.2 v (by omega) hcond.2⟩⟩

/-- Following a backward-edge walk `w` (each `w (n+1)` a predecessor of
`w n`) for `c` steps yields bounded reachability. -/
lemma reachBool_chain (g : Graph) (w : Nat → String)
    (hw : ∀ n, (w (n + 1), w n) ∈ g.edges) :
    ∀ (c base : Nat), reachBool g c (w (base + c)) (w base) = true := by
  intro c
  induction c with
  | zero => intro base; simpa [reachBool] using rfl
  | succ c ih =>
    intro base
    rw [reachBool, Bool.or_eq_true]
    right
    rw [List.any_eq_true]
    refine ⟨(w (base + c + 1), w (base + c)), hw (base + c), ?_⟩
    rw [Bool.and_eq_true]
    constructor
    · simp
      rfl
    · exact ih base

/-- A repeat in a backward-edge walk closes a directed cycle. -/
lemma cycle_from_repeat (g : Graph) (w : Nat → String)
    (hwE : ∀ n, (w (n + 1), w n) ∈ g.edges)
    (i j : Nat) (hij : i < j) (hj : j ≤ g.nodes.length) (heq : w i = w j) :
    hasCycle g = true := by
  rw [hasCycle, List.any_eq_true]
  refine ⟨(w (i + 1), w i), hwE i, ?_⟩
  have hchain : reachBool g (j - (i + 1)) (w ((i + 1) + (j - (i + 1)))) (w (i + 1)) = true :=
    reachBool_chain g w hwE (j - (i + 1)) (i + 1)
  have hbase : (i + 1) + (j - (i + 1)) = j := by omega
  rw [hbase] at hchain
  have hr : reachBool g (j - (i + 1)) (w i) (w (i + 1)) = true := by
    rw [heq]; exact hchain
  exact reachBool_mono g _ _ _ _ (by omega) hr

/-- If the ready set is empty but some node is still un-emitted, the
stuck nodes all retain a stuck predecessor; iterating the predecessor
choice pigeonholes into a closed walk, i.e. a cycle. -/
lemma stuck_hasCycle (g : Graph)
    (hedge : ∀ e ∈ g.edges, e.1 ∈ g.nodes)
    (emitted : List String) (hready : readyNodes g emitted = [])
    (v0 : String) (hv0 : v0 ∈ g.nodes) (hv0n : v0 ∉ emitted) :
    hasCycle g = true := by
  have hstep : ∀ v, v ∈ g.nodes ∧ v ∉ emitted →
      ∃ u, (u ∈ g.nodes ∧ u ∉ emitted) ∧ (u, v) ∈ g.edges := by
    intro v ⟨hvn, hvm⟩
    have : v ∉ readyNodes g emitted := by rw [hready]; simp
    rw [readyNodes, List.mem_filter] at this
    push_neg at this
    have hcond := this hvn
    have hall : ¬ g.edges.all (fun e => !(e.2 == v) || emitted.contains e.1) = true := by
      intro hA
      apply hcond
      rw [Bool.and_eq_true]
      exact ⟨by simpa using hvm, hA⟩
    rw [List.all_eq_true] at hall
    push_neg at hall
    obtain ⟨e, he, hne⟩ := hall
    simp only [ne_eq, Bool.or_eq_true, not_or] at hne
    have he2 : e.2 = v := by
      have := hne.1
      simpa using this
    have he1 : e.1 ∉ emitted := by
      have := hne.2
      simpa using this
    refine ⟨e.1, ⟨hedge e he, he1⟩, ?_⟩
    have : (e.1, e.2) = e := rfl
    rw [← he2]
    rw [this]
    exact he
  classical
  let F : String → String := fun v =>
    if h : v ∈ g.nodes ∧ v ∉ emitted then Classical.choose (hstep v h) else v
  have hF : ∀ v (h : v ∈ g.nodes ∧ v ∉ emitted),
      (F v ∈ g.nodes ∧ F v ∉ emitted) ∧ (F v, v) ∈ g.edges := by
    intro v h
    have := Classical.choose_spec (hstep v h)
    simpa [F, dif_pos h] using this
  let w : Nat → String := fun n => F^[n] v0
  have hwP : ∀ n, w n ∈ g.nodes ∧ w n ∉ emitted := by
    intro n
    induction n with
    | zero => exact ⟨hv0, hv0n⟩
    | succ n ihn =>
      have : w (n + 1) = F (w n) := Function.iterate_succ_apply' F n v0
      rw [this]
      exact (hF (w n) ihn).1
  have hwE : ∀ n, (w (n + 1), w n) ∈ g.edges := by
    intro n
    have : w (n + 1) = F (w n) := Function.iterate_succ_apply' F n v0
    rw [this]
    exact (hF (w n) (hwP n)).2
  -- pigeonhole over the node set
  have hcard : g.nodes.toFinset.card < (Finset.range (g.nodes.length + 1)).card := by
    rw [Finset.card_range]
    have := g.nodes.toFinset_card_le
    omega
  obtain ⟨i, hi, j, hj, hij, heq⟩ :=
    Finset.exists_ne_map_eq_of_card_lt_of_maps_to hcard
      (fun n _ => List.mem_toFinset.mpr (hwP n).1)
  rw [Finset.mem_range] at hi hj
  -- normalize to i < j
  rcases lt_or_gt_of_ne hij with hlt | hlt
  · exact cycle_from_repeat g w hwE i j hlt (by omega) heq
  · exact cycle_from_repeat g w hwE j i hlt (by omega) heq.symm

/-- In an order that respects every edge, bounded reachability is
position-monotone. -/
lemma reach_respects (g : Graph) (r : List String)
    (hresp : ∀ e ∈ g.edges, e.2 ∈ r →
      e.1 ∈ r ∧ List.indexOf e.1 r < List.indexOf e.2 r)
    (hall : ∀ e ∈ g.edges, e.2 ∈ r) :
    ∀ (fuel : Nat) (u v : String), reachBool g fuel u v = true →
      u = v ∨ (v ∈ r ∧ List.indexOf u r < List.indexOf v r) := by
  intro fuel
  induction fuel with
  | zero =>
    intro u v h
    simp [reachBool] at h
    exact Or.inl h
  | succ fuel ih =>
    intro u v h
    rw [reachBool, Bool.or_eq_true] at h
    rcases h with h | h
    · exact Or.inl (by simpa using h)
    · right
      rw [List.any_eq_true] at h
      obtain ⟨e, he, hc⟩ := h
      rw [Bool.and_eq_true] at hc
      have he1 : e.1 = u := by simpa using hc.1
      have h2r : e.2 ∈ r := hall e he
      obtain ⟨h1r, hlt⟩ := hresp e he h2r
      rw [he1] at hlt
      rcases ih e.2 v hc.2 with heq | ⟨hvr, hlt2⟩
      · rw [heq] at h2r hlt
        exact ⟨h2r, hlt⟩
      · exact ⟨hvr, by omega⟩

lemma dedupGo_nodup : ∀ (l seen : List String),
    (dedupKeepFirstGo l seen).Nodup ∧ ∀ y ∈ dedupKeepFirstGo l seen, y ∉ seen := by
  intro l
  induction l with
  | nil => intro seen; simp [dedupKeepFirstGo]
  | cons x xs ih =>
    intro seen
    rw [dedupKeepFirstGo]
    split
    · exact ih seen
    · next hc =>
      obtain ⟨h1, h2⟩ := ih (x :: seen)
      refine ⟨?_, ?_⟩
      · rw [List.nodup_cons]
        exact ⟨fun hm => (h2 x hm) (by simp), h1⟩
      · intro y hy
        rcases List.mem_cons.mp hy with rfl | hy2
        · simpa using hc
        · intro hys
          exact h2 y hy2 (by simp [hys])

lemma build_dependency_graph_wf (outline : List Section) :
    (build_dependency_graph outline).nodes.Nodup ∧
      ∀ e ∈ (build_dependency_graph outline).edges,
        e.1 ∈ (build_dependency_graph outline).nodes ∧
          e.2 ∈ (build_dependency_graph outline).nodes := by
  simp only [build_dependency_graph]
  constructor
  · exact (dedupGo_nodup _ []).1
  · intro e he
    rw [List.mem_filter] at he
    have h2 := he.2
    rw [Bool.and_eq_true] at h2
    exact ⟨by simpa using h2.1, by simpa using h2.2⟩

/-! ## Heading numbering (`number_markdown_headings`, `src/docwriter/stage_utils.py`) -/

/-- Python `str.splitlines` separators (`\\r` handled separately so that
`\\r\\n` counts once). -/
def isLineBreak (c : Char) : Bool :=
  let n := c.toNat
  n == 10 || n == 11 || n == 12 || n == 13 || n == 28 || n == 29 || n == 30 ||
    n == 133 || n == 8232 || n == 8233

/-- `str.splitlines()`: a piece is emitted at every break (with `\\r\\n`
as one break), and the final piece only when nonempty. -/
def pySplitlinesGo : List Char → List Char → List (List Char)
  | [], cur => if cur = [] then [] else [cur]
  | '\r' :: '\n' :: rest2, cur => cur :: pySplitlinesGo rest2 []
  | c :: rest, cur =>
    if isLineBreak c then cur :: pySplitlinesGo rest []
    else pySplitlinesGo rest (cur ++ [c])

def pySplitlines (s : List Char) : List (List Char) := pySplitlinesGo s []

/-- `s.rstrip()`. -/
def pyRstrip (s : List Char) : List Char :=
  (s.reverse.dropWhile pyIsSpace).reverse

def TITLE_PAGE_START : List Char := "<!-- TITLE_PAGE_START -->".toList

def TITLE_PAGE_END : List Char := "<!-- TITLE_PAGE_END -->".toList

/-- `HEADING_RE = ^(#{1,6})\\s+(.+)$` applied to a (break-free) line:
seven or more hashes cannot match (no backtracked split leaves `\\s` after
the hashes), then `\\s+` must be nonempty and `.+` takes the rest; when
the rest is all whitespace, backtracking leaves the last whitespace
character as the text (only its strip-to-empty matters). -/
def matchHeading (line : List Char) : Option (Nat × List Char) :=
  let nh := (line.takeWhile (fun c => c = '#')).length
  if 1 ≤ nh ∧ nh ≤ 6 then
    let rest := line.drop nh
    let ws := rest.takeWhile pyIsSpace
    let text := rest.drop ws.length
    if ws = [] then none
    else if text ≠ [] then some (nh, text)
    else if 2 ≤ ws.length then some (nh, ws.drop (ws.length - 1))
    else none
  else none

def digitOrDot (c : Char) : Bool := c.isDigit || c = '.'

/-- The shape `\\d+(\\.\\d+)*\\.?` of a candidate numbering prefix. -/
def isNumberPrefix (pre : List Char) : Bool :=
  let parts := splitChar '.' pre
  let core := if parts.getLast? = some [] then parts.dropLast else parts
  !core.isEmpty && core.all (fun p => !p.isEmpty && p.all Char.isDigit)

/-- `HEADING_NUMBER_PREFIX_RE.sub("", text, count=1)`: the pattern
`^\\d+(\\.\\d+)*\\.?\\s+` consumes only digits and dots before whitespace,
so it matches iff the maximal digit-and-dot prefix before the first
whitespace run is of the numbering shape and the whitespace run is
nonempty; the match then extends over the entire whitespace run. -/
def stripNumberPrefix (text : List Char) : List Char :=
  let pre := text.takeWhile digitOrDot
  let rest := text.drop pre.length
  let ws := rest.takeWhile pyIsSpace
  if pre ≠ [] ∧ ws ≠ [] ∧ isNumberPrefix pre then
    text.drop (pre.length + ws.length)
  else text

/-- Decimal digits of a counter value (`str(counters[idx])`). -/
def natDigitsGo : Nat → Nat → List Char → List Char
  | 0, _, acc => acc
  | fuel + 1, n, acc =>
    let d := Char.ofNat (48 + n % 10)
    if n < 10 then d :: acc else natDigitsGo fuel (n / 10) (d :: acc)

def natDigits (n : Nat) : List Char := natDigitsGo (n + 1) n []

/-- The three counter updates of the heading branch, elementwise: with
`r` positions left until the incremented slot, a slot is zero-filled-to-1
(`r ≥ 2`), incremented (`r = 1`), or reset to 0 (`r = 0`). -/
def bumpCounters : List Nat → Nat → List Nat
  | [], _ => []
  | c :: cs, 0 => 0 :: bumpCounters cs 0
  | c :: cs, 1 => (c + 1) :: bumpCounters cs 0
  | c :: cs, r + 2 => (if c = 0 then 1 else c) :: bumpCounters cs (r + 1)

structure NumberingState where
  counters : List Nat
  in_title_page : Bool
  in_code_block : Bool
deriving DecidableEq, Repr

def initNumberingState : NumberingState :=
  ⟨List.replicate 6 0, false, false⟩

/-- The numbering string built for a heading. -/
def headingNumbering (counters : List Nat) (level : Nat) : List Char :=
  joinWith '.' (((counters.take level).filter (fun c => 0 < c)).map natDigits)

/-- One iteration of the line loop of `number_markdown_headings`. -/
def processLine (st : NumberingState) (line : List Char) :
    NumberingState × List Char :=
  let stripped := pyStrip line
  if ("```".toList).isPrefixOf stripped || ("~~~".toList).isPrefixOf stripped then
    ({ st with in_code_block := !st.in_code_block }, line)
  else if st.in_code_block then (st, line)
  else if containsSub line TITLE_PAGE_START then
    ({ st with in_title_page := true }, line)
  else if containsSub line TITLE_PAGE_END then
    ({ st with in_title_page := false }, line)
  else
    match matchHeading line with
    | none => (st, line)
    | some (level, rawText) =>
      if st.in_title_page then (st, line)
      else
        let text := pyStrip (stripNumberPrefix (pyStrip rawText))
        let counters := bumpCounters st.counters level
        let numbering := headingNumbering counters level
        let numbered :=
          if numbering ≠ [] then
            pyRstrip (List.replicate level '#' ++ ' ' :: (numbering ++ ' ' :: text))
          else pyRstrip (List.replicate level '#' ++ ' ' :: text)
        ({ st with counters := counters }, numbered)

def numberLines (st : NumberingState) : List (List Char) → List (List Char)
  | [] => []
  | line :: rest =>
    (processLine st line).2 :: numberLines (processLine st line).1 rest

/-- `number_markdown_headings(markdown)`. -/
def number_markdown_headings (markdown : List Char) : List Char :=
  let trailing : List Char := if markdown.getLast? = some '\n' then ['\n'] else []
  joinWith '\n' (numberLines initNumberingState (pySplitlines markdown)) ++ trailing

/-! ### Preliminary string lemmas for idempotence -/

lemma dropWhile_head_not (p : Char → Bool) (s : List Char)
    (h : ∀ c, s.head? = some c → p c = false) : s.dropWhile p = s := by
  cases s with
  | nil => rfl
  | cons c t =>
    rw [List.dropWhile_cons]
    rw [h c rfl]
    simp

lemma head?_dropWhile (p : Char → Bool) (s : List Char) (c : Char)
    (h : (s.dropWhile p).head? = some c) : p c = false := by
  induction s with
  | nil => simp [List.dropWhile] at h
  | cons a t ih =>
    rw [List.dropWhile_cons] at h
    split at h
    · exact ih h
    · next hpa =>
      simp at h
      rw [← h]
      simpa using hpa

lemma getLast?_of_suffix_ne_nil {l₁ l₂ : List Char} (h : l₁.IsSuffix l₂)
    (hne : l₁ ≠ []) : l₁.getLast? = l₂.getLast? := by
  obtain ⟨u, hu⟩ := h
  rw [← hu]
  exact (List.getLast?_append_of_ne_nil u hne).symm

lemma pyStrip_head_not_space (s : List Char) (c : Char)
    (h : (pyStrip s).head? = some c) : pyIsSpace c = false := by
  unfold pyStrip at h
  set X := s.dropWhile pyIsSpace with hX
  set Y := X.reverse.dropWhile pyIsSpace with hY
  rw [List.head?_reverse] at h
  have hYne : Y ≠ [] := by
    intro he
    rw [he] at h
    simp at h
  have hsuf : Y.IsSuffix X.reverse := List.dropWhile_suffix _
  rw [getLast?_of_suffix_ne_nil hsuf hYne] at h
  rw [List.getLast?_reverse] at h
  exact head?_dropWhile pyIsSpace s c h

lemma pyStrip_getLast_not_space (s : List Char) (c : Char)
    (h : (pyStrip s).getLast? = some c) : pyIsSpace c = false := by
  unfold pyStrip at h
  rw [List.getLast?_reverse] at h
  exact head?_dropWhile pyIsSpace _ c h

lemma pyStrip_eq_self (s : List Char)
    (h1 : ∀ c, s.head? = some c → pyIsSpace c = false)
    (h2 : ∀ c, s.getLast? = some c → pyIsSpace c = false) :
    pyStrip s = s := by
  unfold pyStrip
  rw [dropWhile_head_not _ _ h1]
  have hrev : s.reverse.dropWhile pyIsSpace = s.reverse := by
    apply dropWhile_head_not
    intro c hc
    apply h2
    rwa [List.head?_reverse] at hc
  rw [hrev, List.reverse_reverse]

lemma pyRstrip_eq_self (s : List Char)
    (h2 : ∀ c, s.getLast? = some c → pyIsSpace c = false) :
    pyRstrip s = s := by
  unfold pyRstrip
  have hrev : s.reverse.dropWhile pyIsSpace = s.reverse := by
    apply dropWhile_head_not
    intro c hc
    apply h2
    rwa [List.head?_reverse] at hc
  rw [hrev, List.reverse_reverse]

lemma pyStrip_within (s : List Char) : (pyStrip s).IsInfix s := by
  unfold pyStrip
  set X := s.dropWhile pyIsSpace with hX
  have h1 : X.IsSuffix s := List.dropWhile_suffix _
  have h2 : (X.reverse.dropWhile pyIsSpace).IsSuffix X.reverse :=
    List.dropWhile_suffix _
  have h3 : (X.reverse.dropWhile pyIsSpace).reverse.IsPrefix X := by
    simpa using List.reverse_prefix.mpr h2
  exact List.IsPrefix.isInfix h3 |>.trans h1.isInfix

lemma containsSub_iff_within (pat : List Char) :
    ∀ s : List Char, containsSub s pat = true ↔ pat.IsInfix s := by
  intro s
  induction s with
  | nil =>
    rw [containsSub, findSub]
    constructor
    · intro h
      split at h
      · next hp =>
        have : pat.IsPrefix [] := List.isPrefixOf_iff_prefix.mp hp
        exact this.isInfix
      · simp at h
    · intro h
      have : pat = [] := List.eq_nil_of_infix_nil h
      rw [if_pos (by rw [this]; rfl)]
      rfl
  | cons c t ih =>
    rw [containsSub, findSub]
    constructor
    · intro h
      split at h
      · next hp =>
        exact (List.isPrefixOf_iff_prefix.mp hp).isInfix
      · simp only [Option.isSome_map'] at h
        have : pat.IsInfix t := ih.mp h
        exact this.trans (List.suffix_cons c t).isInfix
    · intro h
      split
      · rfl
      · next hp =>
        simp only [Option.isSome_map']
        apply ih.mpr
        obtain ⟨u, v, huv⟩ := h
        cases u with
        | nil =>
          exfalso
          apply hp
          apply List.isPrefixOf_iff_prefix.mpr
          exact ⟨v, by simpa using huv⟩
        | cons a u2 =>
          have : t = u2 ++ pat ++ v := by
            have := huv
            simp only [List.cons_append] at this
            injection this with _ h2
            exact h2.symm
          exact ⟨u2, v, this.symm⟩

/-- An occurrence of a pattern whose first character never occurs in
`pre` lies entirely inside `t`. -/
lemma infix_right_of_fresh_head (pre t pat2 : List Char) (hc : Char)
    (hpre : ∀ a ∈ pre, a ≠ hc)
    (h : (hc :: pat2).IsInfix (pre ++ t)) : (hc :: pat2).IsInfix t := by
  obtain ⟨u, v, huv⟩ := h
  by_cases hlen : pre.length ≤ u.length
  · have htake : (u ++ (hc :: pat2) ++ v).take pre.length = u.take pre.length := by
      rw [List.append_assoc, List.take_append_of_le_length hlen]
    have h2 : (pre ++ t).take pre.length = pre := List.take_left pre t
    rw [← huv, htake] at h2
    have hpreu : pre.IsPrefix u := by
      refine ⟨u.drop pre.length, ?_⟩
      conv_rhs => rw [← List.take_append_drop pre.length u]
      rw [h2]
    obtain ⟨u2, hu2⟩ := hpreu
    refine ⟨u2, v, ?_⟩
    rw [← hu2] at huv
    have hcancel : u2 ++ ((hc :: pat2) ++ v) = t := by
      have hx : pre ++ (u2 ++ ((hc :: pat2) ++ v)) = pre ++ t := by
        rw [← List.append_assoc, ← List.append_assoc]
        exact huv
      exact List.append_cancel_left hx
    rw [← hcancel]
    simp
  · exfalso
    push_neg at hlen
    have hb3 : u.length < (u ++ (hc :: pat2) ++ v).length := by simp
    have hbound : u.length < (pre ++ t).length := huv ▸ hb3
    have e2 : (u ++ (hc :: pat2) ++ v)[u.length] = hc := by
      have ha := List.getElem_of_eq (List.append_assoc u (hc :: pat2) v) hb3
      rw [ha, List.getElem_append_right (le_refl u.length)]
      simp
    have e1 : (pre ++ t)[u.length] = pre[u.length] :=
      List.getElem_append_left hlen
    have e3 : (u ++ (hc :: pat2) ++ v)[u.length] = (pre ++ t)[u.length] :=
      List.getElem_of_eq huv hb3
    exact hpre (pre[u.length]) (List.getElem_mem hlen) (by rw [← e1, ← e3, e2])

lemma takeWhile_append_of_all (p : Char → Bool) (l1 l2 : List Char)
    (h1 : ∀ a ∈ l1, p a = true) (h2 : ∀ c, l2.head? = some c → p c = false) :
    (l1 ++ l2).takeWhile p = l1 := by
  induction l1 with
  | nil =>
    cases l2 with
    | nil => rfl
    | cons c t =>
      simp only [List.nil_append, List.takeWhile_cons]
      rw [h2 c rfl]
      simp
  | cons a t ih =>
    rw [List.cons_append, List.takeWhile_cons, h1 a (by simp)]
    simp only [ite_true]
    rw [ih (fun b hb => h1 b (by simp [hb]))]

lemma drop_append_cons_one (l1 l2 : List Char) (c : Char) :
    (l1 ++ c :: l2).drop (l1.length + 1) = l2 := by
  have : l1 ++ c :: l2 = (l1 ++ [c]) ++ l2 := by simp
  rw [this]
  have hlen : (l1 ++ [c]).length = l1.length + 1 := by simp
  rw [← hlen, List.drop_left]

lemma isDigit_not_space (c : Char) (h : c.isDigit = true) : pyIsSpace c = false := by
  have hb : 48 ≤ c.toNat ∧ c.toNat ≤ 57 := by
    simp [Char.isDigit, Char.le_def] at h
    exact ⟨h.1, h.2⟩
  simp [pyIsSpace]
  omega

lemma digitOrDot_not_space (c : Char) (h : digitOrDot c = true) : pyIsSpace c = false := by
  rw [digitOrDot, Bool.or_eq_true] at h
  rcases h with h | h
  · exact isDigit_not_space c h
  · simp at h
    subst h
    decide

lemma natDigitsGo_digits : ∀ (fuel n : Nat) (acc : List Char),
    (∀ c ∈ acc, c.isDigit = true) → ∀ c ∈ natDigitsGo fuel n acc, c.isDigit = true := by
  intro fuel
  induction fuel with
  | zero => intro n acc hacc; exact hacc
  | succ fuel ih =>
    intro n acc hacc c hc
    rw [natDigitsGo] at hc
    have hd : (Char.ofNat (48 + n % 10)).isDigit = true := by
      have hm : n % 10 < 10 := Nat.mod_lt n (by omega)
      have : n % 10 = 0 ∨ n % 10 = 1 ∨ n % 10 = 2 ∨ n % 10 = 3 ∨ n % 10 = 4 ∨
          n % 10 = 5 ∨ n % 10 = 6 ∨ n % 10 = 7 ∨ n % 10 = 8 ∨ n % 10 = 9 := by omega
      rcases this with h|h|h|h|h|h|h|h|h|h <;> rw [h] <;> decide
    split at hc
    · rcases List.mem_cons.mp hc with rfl | hc2
      · exact hd
      · exact hacc c hc2
    · exact ih (n / 10) _ (fun b hb => by
        rcases List.mem_cons.mp hb with rfl | hb2
        · exact hd
        · exact hacc b hb2) c hc

lemma natDigitsGo_ne_nil : ∀ (fuel n : Nat) (acc : List Char),
    acc ≠ [] → natDigitsGo fuel n acc ≠ [] := by
  intro fuel
  induction fuel with
  | zero => intro n acc h; exact h
  | succ fuel ih =>
    intro n acc _
    rw [natDigitsGo]
    split
    · simp
    · exact ih (n / 10) _ (by simp)

lemma natDigits_ne_nil (n : Nat) : natDigits n ≠ [] := by
  rw [natDigits, natDigitsGo]
  split
  · simp
  · exact natDigitsGo_ne_nil n (n / 10) _ (by simp)

lemma natDigits_digits (n : Nat) : ∀ c ∈ natDigits n, c.isDigit = true :=
  natDigitsGo_digits (n + 1) n [] (by simp)

lemma splitChar_sepFree (sep : Char) :
    ∀ r : List Char, sep ∉ r → splitChar sep r = [r] := by
  intro r
  induction r with
  | nil => intro _; rfl
  | cons c t ih =>
    intro h
    rw [splitChar]
    rw [if_neg (by intro hc; exact h (by simp [hc]))]
    rw [ih (fun hm => h (by simp [hm]))]

lemma splitChar_append_sep (sep : Char) (s : List Char) :
    ∀ r : List Char, sep ∉ r → splitChar sep (r ++ sep :: s) = r :: splitChar sep s := by
  intro r
  induction r with
  | nil =>
    intro _
    simp [splitChar]
  | cons c t ih =>
    intro h
    rw [List.cons_append, splitChar]
    rw [if_neg (by intro hc; exact h (by simp [hc]))]
    rw [ih (fun hm => h (by simp [hm]))]

lemma joinWith_cons_ne (sep : Char) (c : List Char) (rest : List (List Char))
    (h : rest ≠ []) : joinWith sep (c :: rest) = c ++ sep :: joinWith sep rest := by
  cases rest with
  | nil => exact absurd rfl h
  | cons a t => rfl

lemma splitChar_joinWith (sep : Char) :
    ∀ runs : List (List Char), runs ≠ [] → (∀ r ∈ runs, sep ∉ r) →
      splitChar sep (joinWith sep runs) = runs := by
  intro runs
  induction runs with
  | nil => intro h; exact absurd rfl h
  | cons r rest ih =>
    intro _ hfree
    cases rest with
    | nil => exact splitChar_sepFree sep r (hfree r (by simp))
    | cons r2 rest2 =>
      rw [joinWith_cons_ne sep r _ (by simp)]
      rw [splitChar_append_sep sep _ r (hfree r (by simp))]
      rw [ih (by simp) (fun b hb => hfree b (by simp [hb]))]

lemma pyStrip_idem (s : List Char) : pyStrip (pyStrip s) = pyStrip s :=
  pyStrip_eq_self _ (pyStrip_head_not_space s) (pyStrip_getLast_not_space s)

lemma mem_takeWhile_sat (p : Char → Bool) :
    ∀ (l : List Char) (c : Char), c ∈ l.takeWhile p → p c = true := by
  intro l
  induction l with
  | nil => intro c hc; simp [List.takeWhile] at hc
  | cons a t ih =>
    intro c hc
    rw [List.takeWhile_cons] at hc
    split at hc
    · next hpa =>
      rcases List.mem_cons.mp hc with rfl | hc2
      · exact hpa
      · exact ih c hc2
    · simp at hc

lemma stripNumberPrefix_within (s : List Char) : (stripNumberPrefix s).IsInfix s := by
  unfold stripNumberPrefix
  dsimp only []
  split
  · exact (List.drop_suffix _ _).isInfix
  · exact List.infix_refl s

lemma matchHeading_text_within (line : List Char) (lv : Nat) (t : List Char)
    (h : matchHeading line = some (lv, t)) : t.IsInfix line := by
  unfold matchHeading at h
  dsimp only [] at h
  split at h
  · split at h
    · exact absurd h (by simp)
    · split at h
      · injection h with h2
        injection h2 with _ h3
        subst h3
        exact ((List.drop_suffix _ _).trans (List.drop_suffix _ _)).isInfix
      · split at h
        · injection h with h2
          injection h2 with _ h3
          subst h3
          exact ((List.drop_suffix _ _).isInfix).trans
            (((List.takeWhile_prefix _).isInfix).trans (List.drop_suffix _ _).isInfix)
        · exact absurd h (by simp)
  · exact absurd h (by simp)

lemma isPrefixOf_cons_of_ne (a b : Char) (l1 l2 : List Char) (h : a ≠ b) :
    (a :: l1).isPrefixOf (b :: l2) = false := by
  rw [Bool.eq_false_iff]
  intro hp
  obtain ⟨t, ht⟩ := List.isPrefixOf_iff_prefix.mp hp
  rw [List.cons_append] at ht
  injection ht with h1 _
  exact h h1

/-- `pyStrip` keeps something whenever the string ends in non-whitespace. -/
lemma pyStrip_ne_nil_of_getLast (s : List Char) (c : Char) (hc : s.getLast? = some c)
    (hcw : pyIsSpace c = false) : pyStrip s ≠ [] := by
  intro habs
  unfold pyStrip at habs
  rw [List.reverse_eq_nil_iff, List.dropWhile_eq_nil_iff] at habs
  have hall : ∀ a ∈ s.dropWhile pyIsSpace, pyIsSpace a = true := by
    intro a ha
    exact habs a (by simp [ha])
  have hX : s.dropWhile pyIsSpace = [] := by
    rcases hX0 : s.dropWhile pyIsSpace with _ | ⟨x, xs⟩
    · rfl
    · have hx : pyIsSpace x = false := head?_dropWhile pyIsSpace s x (by rw [hX0]; rfl)
      have hx2 := hall x (by rw [hX0]; simp)
      rw [hx] at hx2
      exact absurd hx2 (by simp)
  rw [List.dropWhile_eq_nil_iff] at hX
  have hmem : c ∈ s := List.mem_of_mem_getLast? (by rw [hc]; rfl)
  have hc2 := hX c hmem
  rw [hcw] at hc2
  exact absurd hc2 (by simp)

/-- A list splits at its `takeWhile` boundary. -/
lemma takeWhile_drop_decompose (p : Char → Bool) (l : List Char) :
    l = l.takeWhile p ++ l.drop (l.takeWhile p).length := by
  have hpfx : (l.takeWhile p).IsPrefix l := List.takeWhile_prefix p
  obtain ⟨u, hu⟩ := hpfx
  have hdrop := congrArg (List.drop (l.takeWhile p).length) hu
  rw [List.drop_left] at hdrop
  conv_lhs => rw [← hu]
  rw [hdrop]

/-- A non-blank heading text stays non-blank through the number-prefix
strip: the stripped text ends in non-whitespace, so the regex match can
never swallow it whole. -/
lemma strip_prefix_strip_ne_nil (rawText : List Char) (h : pyStrip rawText ≠ []) :
    pyStrip (stripNumberPrefix (pyStrip rawText)) ≠ [] := by
  set t := pyStrip rawText with ht
  obtain ⟨cl, hcl⟩ : ∃ c, t.getLast? = some c := by
    rcases hL : t.getLast? with _ | c
    · rw [List.getLast?_eq_none] at hL
      exact absurd hL h
    · exact ⟨c, rfl⟩
  have hclw : pyIsSpace cl = false := pyStrip_getLast_not_space rawText cl (by rw [← ht]; exact hcl)
  unfold stripNumberPrefix
  dsimp only []
  split
  · next hcond =>
    obtain ⟨hpre_ne, hws_ne, -⟩ := hcond
    set pre := t.takeWhile digitOrDot with hpredef
    set rest0 := t.drop pre.length with hrest0
    set ws := rest0.takeWhile pyIsSpace with hwsdef
    set rest1 := rest0.drop ws.length with hrest1
    have hD1 : t = pre ++ rest0 := takeWhile_drop_decompose digitOrDot t
    have hD2 : rest0 = ws ++ rest1 := takeWhile_drop_decompose pyIsSpace rest0
    have hD3 : t.drop (pre.length + ws.length) = rest1 := by
      rw [hrest1, hrest0, List.drop_drop]
      try rw [Nat.add_comm]
    rw [hD3]
    have hr1ne : rest1 ≠ [] := by
      intro habs
      rw [habs, List.append_nil] at hD2
      have hlast : t.getLast? = ws.getLast? := by
        rw [hD1, hD2]
        exact List.getLast?_append_of_ne_nil _ hws_ne
      rw [hcl] at hlast
      have hwm : cl ∈ ws := List.mem_of_mem_getLast? (by rw [← hlast]; rfl)
      have := mem_takeWhile_sat pyIsSpace rest0 cl (by rw [← hwsdef] at *; exact hwm)
      rw [hclw] at this
      exact absurd this (by simp)
    have hlast1 : rest1.getLast? = some cl := by
      have h1 : t.getLast? = rest1.getLast? := by
        rw [hD1, hD2]
        rw [List.getLast?_append_of_ne_nil pre (by simp [hr1ne])]
        exact List.getLast?_append_of_ne_nil ws hr1ne
      rw [← h1, hcl]
    exact pyStrip_ne_nil_of_getLast rest1 cl hlast1 hclw
  · rw [ht, pyStrip_idem, ← ht]
    exact h

lemma bumpCounters_length : ∀ (cs : List Nat) (r : Nat),
    (bumpCounters cs r).length = cs.length := by
  intro cs
  induction cs with
  | nil => intro r; cases r <;> rfl
  | cons c t ih =>
    intro r
    match r with
    | 0 => simp [bumpCounters, ih]
    | 1 => simp [bumpCounters, ih]
    | r + 2 => simp [bumpCounters, ih]

lemma bumpCounters_take_pos : ∀ (cs : List Nat) (r : Nat), 1 ≤ r → r ≤ cs.length →
    ∀ x ∈ (bumpCounters cs r).take r, 0 < x := by
  intro cs
  induction cs with
  | nil =>
    intro r h1 h2
    simp at h2
    omega
  | cons c t ih =>
    intro r h1 h2 x hx
    rcases r with _ | r
    · omega
    rcases r with _ | r
    · rw [bumpCounters] at hx
      simp at hx
      omega
    · rw [bumpCounters, List.take_succ_cons] at hx
      rcases List.mem_cons.mp hx with rfl | hx2
      · split <;> omega
      · exact ih (r + 1) (by omega) (by simp at h2; omega) x hx2

lemma joinWith_chars (sep : Char) :
    ∀ (runs : List (List Char)) (c : Char), c ∈ joinWith sep runs →
      c = sep ∨ ∃ r ∈ runs, c ∈ r := by
  intro runs
  induction runs with
  | nil => intro c hc; simp [joinWith] at hc
  | cons r rest ih =>
    intro c hc
    cases rest with
    | nil =>
      right
      exact ⟨r, by simp, hc⟩
    | cons r2 rest2 =>
      rw [joinWith_cons_ne sep r _ (by simp)] at hc
      rcases List.mem_append.mp hc with hc | hc
      · exact Or.inr ⟨r, by simp, hc⟩
      · rcases List.mem_cons.mp hc with rfl | hc2
        · exact Or.inl rfl
        · rcases ih c hc2 with h | ⟨r3, hr3, hcr3⟩
          · exact Or.inl h
          · exact Or.inr ⟨r3, by simp [hr3], hcr3⟩

lemma joinWith_head? (sep : Char) (r : List Char) (rest : List (List Char))
    (hr : r ≠ []) : (joinWith sep (r :: rest)).head? = r.head? := by
  cases rest with
  | nil => rfl
  | cons a t =>
    rw [joinWith_cons_ne sep r _ (by simp)]
    cases r with
    | nil => exact absurd rfl hr
    | cons x xs => rfl

lemma joinWith_ne_nil (sep : Char) (r : List Char) (rest : List (List Char))
    (hr : r ≠ []) : joinWith sep (r :: rest) ≠ [] := by
  cases rest with
  | nil => exact hr
  | cons a t =>
    rw [joinWith_cons_ne sep r _ (by simp)]
    cases r with
    | nil => exact absurd rfl hr
    | cons x xs => simp

lemma isDigit_ne_dot (c : Char) (h : c.isDigit = true) : c ≠ '.' := by
  intro he
  subst he
  exact absurd h (by decide)

lemma headingNumbering_spec (cs : List Nat) (lv : Nat) (h1 : 1 ≤ lv)
    (h2 : lv ≤ cs.length) :
    headingNumbering (bumpCounters cs lv) lv ≠ [] ∧
    (∀ c ∈ headingNumbering (bumpCounters cs lv) lv, digitOrDot c = true) ∧
    (∀ c, (headingNumbering (bumpCounters cs lv) lv).head? = some c →
      c.isDigit = true) ∧
    isNumberPrefix (headingNumbering (bumpCounters cs lv) lv) = true := by
  have hpos := bumpCounters_take_pos cs lv h1 h2
  have hfilter : ((bumpCounters cs lv).take lv).filter (fun c => 0 < c) =
      (bumpCounters cs lv).take lv := by
    apply List.filter_eq_self.mpr
    intro a ha
    simpa using hpos a ha
  have htne : (bumpCounters cs lv).take lv ≠ [] := by
    have hlen : ((bumpCounters cs lv).take lv).length = lv := by
      rw [List.length_take, bumpCounters_length]
      omega
    intro habs
    rw [habs] at hlen
    simp at hlen
    omega
  unfold headingNumbering
  rw [hfilter]
  rcases hrt : (bumpCounters cs lv).take lv with _ | ⟨v0, vrest⟩
  · exact absurd hrt htne
  · simp only [List.map_cons]
    refine ⟨joinWith_ne_nil _ _ _ (natDigits_ne_nil v0), ?_, ?_, ?_⟩
    · intro c hc
      rcases joinWith_chars '.' _ c hc with rfl | ⟨r, hr, hcr⟩
      · simp [digitOrDot]
      · rcases List.mem_cons.mp hr with rfl | hr2
        · rw [digitOrDot, natDigits_digits v0 c hcr]
          simp
        · obtain ⟨v, hv, hveq⟩ := List.mem_map.mp hr2
          rw [digitOrDot, natDigits_digits v c (hveq ▸ hcr)]
          simp
    · intro c hc
      rw [joinWith_head? '.' _ _ (natDigits_ne_nil v0)] at hc
      exact natDigits_digits v0 c (List.mem_of_mem_head? hc)
    · rw [isNumberPrefix]
      have hsplit : splitChar '.' (joinWith '.' (natDigits v0 :: vrest.map natDigits)) =
          natDigits v0 :: vrest.map natDigits := by
        apply splitChar_joinWith
        · simp
        · intro r hr hmem
          rcases List.mem_cons.mp hr with rfl | hr2
          · exact isDigit_ne_dot '.' (natDigits_digits v0 '.' hmem) rfl
          · obtain ⟨v, hv, hveq⟩ := List.mem_map.mp hr2
            exact isDigit_ne_dot '.' (natDigits_digits v '.' (hveq ▸ hmem)) rfl
      rw [hsplit]
      have hlastne : (natDigits v0 :: vrest.map natDigits).getLast? ≠ some [] := by
        intro habs
        have hmem := List.mem_of_mem_getLast? (by rw [habs]; rfl)
        rcases List.mem_cons.mp hmem with heq | hmem2
        · exact natDigits_ne_nil v0 heq.symm
        · obtain ⟨v, hv, hveq⟩ := List.mem_map.mp hmem2
          exact natDigits_ne_nil v hveq
      rw [if_neg hlastne]
      rw [Bool.and_eq_true]
      constructor
      · simp
      · rw [List.all_eq_true]
        intro r hr
        rw [Bool.and_eq_true]
        constructor
        · rcases List.mem_cons.mp hr with rfl | hr2
          · simpa using natDigits_ne_nil v0
          · obtain ⟨v, hv, hveq⟩ := List.mem_map.mp hr2
            simpa [← hveq] using natDigits_ne_nil v
        · rw [List.all_eq_true]
          intro c hc
          rcases List.mem_cons.mp hr with rfl | hr2
          · exact natDigits_digits v0 c hc
          · obtain ⟨v, hv, hveq⟩ := List.mem_map.mp hr2
            exact natDigits_digits v c (hveq ▸ hc)

lemma matchHeading_level (line : List Char) (lv : Nat) (t : List Char)
    (h : matchHeading line = some (lv, t)) : 1 ≤ lv ∧ lv ≤ 6 := by
  unfold matchHeading at h
  dsimp only [] at h
  split at h
  · next hb =>
    split at h
    · exact absurd h (by simp)
    · split at h
      · simp only [Option.some.injEq, Prod.mk.injEq] at h
        obtain ⟨rfl, -⟩ := h
        exact hb
      · split at h
        · simp only [Option.some.injEq, Prod.mk.injEq] at h
          obtain ⟨rfl, -⟩ := h
          exact hb
        · exact absurd h (by simp)
  · exact absurd h (by simp)

lemma stripNumberPrefix_numbered (nb text : List Char)
    (hnb_ne : nb ≠ []) (hnb_chars : ∀ c ∈ nb, digitOrDot c = true)
    (hnb_pref : isNumberPrefix nb = true)
    (htext_head : ∀ c, text.head? = some c → pyIsSpace c = false) :
    stripNumberPrefix (nb ++ ' ' :: text) = text := by
  unfold stripNumberPrefix
  dsimp only []
  have hpre : (nb ++ ' ' :: text).takeWhile digitOrDot = nb := by
    apply takeWhile_append_of_all _ _ _ hnb_chars
    intro c hc
    rw [List.head?_cons] at hc
    injection hc with h
    subst h
    decide
  have hrest : (nb ++ ' ' :: text).drop nb.length = ' ' :: text :=
    List.drop_left nb (' ' :: text)
  have hws : (' ' :: text).takeWhile pyIsSpace = ([' '] : List Char) := by
    have he : (' ' :: text) = [' '] ++ text := rfl
    rw [he]
    apply takeWhile_append_of_all
    · intro a ha
      simp at ha
      subst ha
      decide
    · exact htext_head
  rw [hpre, hrest, hws]
  rw [if_pos ⟨hnb_ne, by simp, hnb_pref⟩]
  have hl1 : ([' '] : List Char).length = 1 := rfl
  rw [hl1]
  exact drop_append_cons_one nb text ' '

lemma matchHeading_hash_space (lv : Nat) (h1 : 1 ≤ lv) (h6 : lv ≤ 6)
    (tail : List Char) (htail_ne : tail ≠ [])
    (hhead : ∀ c, tail.head? = some c → pyIsSpace c = false) :
    matchHeading (List.replicate lv '#' ++ ' ' :: tail) = some (lv, tail) := by
  unfold matchHeading
  dsimp only []
  have hhash : (List.replicate lv '#' ++ ' ' :: tail).takeWhile (fun c => c = '#') =
      List.replicate lv '#' := by
    apply takeWhile_append_of_all
    · intro a ha
      rw [List.eq_of_mem_replicate ha]
      simp
    · intro c hc
      rw [List.head?_cons] at hc
      injection hc with h
      subst h
      simp
  rw [hhash, List.length_replicate]
  rw [if_pos ⟨h1, h6⟩]
  have hdrop : (List.replicate lv '#' ++ ' ' :: tail).drop lv = ' ' :: tail := by
    have hd := List.drop_left (List.replicate lv '#') (' ' :: tail)
    rwa [List.length_replicate] at hd
  rw [hdrop]
  have hws : (' ' :: tail).takeWhile pyIsSpace = ([' '] : List Char) := by
    have he : (' ' :: tail) = [' '] ++ tail := rfl
    rw [he]
    apply takeWhile_append_of_all
    · intro a ha
      simp at ha
      subst ha
      decide
    · exact hhead
  rw [hws]
  rw [if_neg (by simp)]
  have hd1 : (' ' :: tail).drop (List.length ([' '] : List Char)) = tail := rfl
  rw [hd1]
  rw [if_pos htail_ne]

lemma getLast?_append_cons (l1 l2 : List Char) (c : Char) :
    (l1 ++ c :: l2).getLast? = (c :: l2).getLast? := by
  apply List.getLast?_append_of_ne_nil
  simp

lemma getLast?_cons_ne_nil (a : Char) (l : List Char) (h : l ≠ []) :
    (a :: l).getLast? = l.getLast? := by
  have he : a :: l = [a] ++ l := rfl
  rw [he]
  apply List.getLast?_append_of_ne_nil
  exact h

lemma numbered_line_getLast (lv : Nat) (nb text : List Char) (htext_ne : text ≠ []) :
    (List.replicate lv '#' ++ ' ' :: (nb ++ ' ' :: text)).getLast? = text.getLast? := by
  rw [getLast?_append_cons]
  rw [getLast?_cons_ne_nil _ _ (by simp)]
  rw [getLast?_append_cons]
  rw [getLast?_cons_ne_nil _ _ htext_ne]

lemma numbered_line_head (lv : Nat) (h1 : 1 ≤ lv) (tail : List Char) :
    (List.replicate lv '#' ++ ' ' :: tail).head? = some '#' := by
  rcases lv with _ | k
  · omega
  · rw [List.replicate_succ]
    rfl

lemma numbered_line_strip (lv : Nat) (h1 : 1 ≤ lv) (nb text : List Char)
    (htext_ne : text ≠ [])
    (hlast : ∀ c, text.getLast? = some c → pyIsSpace c = false) :
    pyStrip (List.replicate lv '#' ++ ' ' :: (nb ++ ' ' :: text)) =
      List.replicate lv '#' ++ ' ' :: (nb ++ ' ' :: text) := by
  apply pyStrip_eq_self
  · intro c hc
    rw [numbered_line_head lv h1] at hc
    injection hc with h
    subst h
    decide
  · intro c hc
    rw [numbered_line_getLast lv nb text htext_ne] at hc
    exact hlast c hc

lemma numbered_line_rstrip (lv : Nat) (nb text : List Char)
    (htext_ne : text ≠ [])
    (hlast : ∀ c, text.getLast? = some c → pyIsSpace c = false) :
    pyRstrip (List.replicate lv '#' ++ ' ' :: (nb ++ ' ' :: text)) =
      List.replicate lv '#' ++ ' ' :: (nb ++ ' ' :: text) := by
  apply pyRstrip_eq_self
  intro c hc
  rw [numbered_line_getLast lv nb text htext_ne] at hc
  exact hlast c hc

lemma numbered_tail_strip (nb text : List Char) (hnb_ne : nb ≠ [])
    (hnb_head : ∀ c, nb.head? = some c → c.isDigit = true)
    (htext_ne : text ≠ [])
    (hlast : ∀ c, text.getLast? = some c → pyIsSpace c = false) :
    pyStrip (nb ++ ' ' :: text) = nb ++ ' ' :: text := by
  apply pyStrip_eq_self
  · intro c hc
    rcases nb with _ | ⟨d, nbt⟩
    · exact absurd rfl hnb_ne
    · rw [List.cons_append, List.head?_cons] at hc
      injection hc with h
      subst h
      exact isDigit_not_space _ (hnb_head _ rfl)
  · intro c hc
    rw [getLast?_append_cons, getLast?_cons_ne_nil _ _ htext_ne] at hc
    exact hlast c hc

lemma digitOrDot_ne_lt (c : Char) (h : digitOrDot c = true) : c ≠ '<' := by
  intro he
  subst he
  exact absurd h (by decide)

lemma infix_numbered_line (lv : Nat) (nb text pat2 : List Char)
    (hnb : ∀ c ∈ nb, digitOrDot c = true)
    (h : ('<' :: pat2).IsInfix
      (List.replicate lv '#' ++ ' ' :: (nb ++ ' ' :: text))) :
    ('<' :: pat2).IsInfix text := by
  have hassoc : List.replicate lv '#' ++ ' ' :: (nb ++ ' ' :: text) =
      (List.replicate lv '#' ++ ' ' :: nb ++ [' ']) ++ text := by
    simp
  rw [hassoc] at h
  apply infix_right_of_fresh_head _ text pat2 '<' _ h
  intro a ha
  simp only [List.mem_append, List.mem_cons, List.mem_replicate,
    List.mem_singleton, List.not_mem_nil, or_false] at ha
  rcases ha with (⟨_, rfl⟩ | rfl | hnb2) | rfl
  · simp
  · simp
  · exact digitOrDot_ne_lt a (hnb a hnb2)
  · simp

lemma mem_numbered_line (lv : Nat) (nb text : List Char) (a : Char)
    (ha : a ∈ List.replicate lv '#' ++ ' ' :: (nb ++ ' ' :: text)) :
    a = '#' ∨ a = ' ' ∨ a ∈ nb ∨ a ∈ text := by
  simp only [List.mem_append, List.mem_cons, List.mem_replicate] at ha
  tauto

lemma digitOrDot_not_break (c : Char) (h : digitOrDot c = true) :
    isLineBreak c = false := by
  rw [digitOrDot, Bool.or_eq_true] at h
  rcases h with h | h
  · have hb : 48 ≤ c.toNat ∧ c.toNat ≤ 57 := by
      simp [Char.isDigit, Char.le_def] at h
      exact ⟨h.1, h.2⟩
    simp [isLineBreak]
    omega
  · simp at h
    subst h
    decide

/-- A line is good for a state when a second pass reproduces it: any line
except a visible heading (outside code blocks and the title page) whose
text strips to nothing. -/
def goodLine (st : NumberingState) (line : List Char) : Bool :=
  let stripped := pyStrip line
  if ("```".toList).isPrefixOf stripped || ("~~~".toList).isPrefixOf stripped then
    true
  else if st.in_code_block then true
  else if containsSub line TITLE_PAGE_START then true
  else if containsSub line TITLE_PAGE_END then true
  else
    match matchHeading line with
    | none => true
    | some (_, rawText) => st.in_title_page || !(pyStrip rawText).isEmpty

def goodLines : NumberingState → List (List Char) → Bool
  | _, [] => true
  | st, line :: rest =>
    goodLine st line && goodLines (processLine st line).1 rest

def breakFree (line : List Char) : Bool := line.all (fun c => !isLineBreak c)

lemma headingNumbering_chars (cs : List Nat) (lv : Nat) :
    ∀ c ∈ headingNumbering cs lv, digitOrDot c = true := by
  intro c hc
  rcases joinWith_chars '.' _ c hc with rfl | ⟨r, hr, hcr⟩
  · simp [digitOrDot]
  · obtain ⟨v, hv, hveq⟩ := List.mem_map.mp hr
    rw [digitOrDot, natDigits_digits v c (hveq ▸ hcr)]
    simp

lemma mem_pyRstrip (s : List Char) (c : Char) (h : c ∈ pyRstrip s) : c ∈ s := by
  unfold pyRstrip at h
  rw [List.mem_reverse] at h
  have h2 := (List.dropWhile_suffix pyIsSpace).sublist.mem h
  rwa [List.mem_reverse] at h2

lemma processLine_counters_length (st : NumberingState) (line : List Char) :
    ((processLine st line).1).counters.length = st.counters.length := by
  unfold processLine
  dsimp only []
  split
  · rfl
  · split
    · rfl
    · split
      · rfl
      · split
        · rfl
        · split
          · rfl
          · split
            · rfl
            · exact bumpCounters_length st.counters _

lemma processLine_breakFree (st : NumberingState) (line : List Char)
    (h : breakFree line = true) : breakFree (processLine st line).2 = true := by
  unfold processLine
  dsimp only []
  split
  · exact h
  · split
    · exact h
    · split
      · exact h
      · split
        · exact h
        · split
          · exact h
          · next lv rawText heq =>
            split
            · exact h
            · dsimp only []
              have htextmem : ∀ c, c ∈ pyStrip (stripNumberPrefix (pyStrip rawText)) →
                  c ∈ line := by
                intro c hcl
                have hchain : (pyStrip (stripNumberPrefix (pyStrip rawText))).IsInfix line :=
                  ((pyStrip_within _).trans (stripNumberPrefix_within _)).trans
                    ((pyStrip_within _).trans (matchHeading_text_within line lv rawText heq))
                exact hchain.sublist.mem hcl
              rw [breakFree, List.all_eq_true] at h
              split
              · rw [breakFree, List.all_eq_true]
                intro c hcmem
                have hc2 := mem_pyRstrip _ c hcmem
                have hcfree : isLineBreak c = false := by
                  rcases mem_numbered_line lv _ _ c hc2 with rfl | rfl | hnb | htex
                  · decide
                  · decide
                  · exact digitOrDot_not_break c (headingNumbering_chars _ _ c hnb)
                  · have hmem := htextmem c htex
                    have hc3 := h c hmem
                    simpa using hc3
                simp [hcfree]
              · rw [breakFree, List.all_eq_true]
                intro c hcmem
                have hc2 := mem_pyRstrip _ c hcmem
                simp only [List.mem_append, List.mem_cons, List.mem_replicate] at hc2
                have hcfree : isLineBreak c = false := by
                  rcases hc2 with ⟨-, rfl⟩ | rfl | htex
                  · decide
                  · decide
                  · have hmem := htextmem c htex
                    have hc3 := h c hmem
                    simpa using hc3
                simp [hcfree]

/-- A good line processed twice from the same entering state gives the
same result as processed once. -/
lemma processLine_idem (st : NumberingState) (line : List Char)
    (hcs : st.counters.length = 6) (hgood : goodLine st line = true) :
    processLine st (processLine st line).2 = processLine st line := by
  by_cases hb : (("```".toList).isPrefixOf (pyStrip line) ||
      ("~~~".toList).isPrefixOf (pyStrip line)) = true
  · have he : processLine st line =
        ({ st with in_code_block := !st.in_code_block }, line) := by
      unfold processLine
      dsimp only []
      rw [if_pos hb]
    rw [he]
    exact he
  · by_cases hc : st.in_code_block = true
    · have he : processLine st line = (st, line) := by
        unfold processLine
        dsimp only []
        rw [if_neg hb, if_pos hc]
      rw [he]
      exact he
    · by_cases ht1 : containsSub line TITLE_PAGE_START = true
      · have he : processLine st line = ({ st with in_title_page := true }, line) := by
          unfold processLine
          dsimp only []
          rw [if_neg hb, if_neg hc, if_pos ht1]
        rw [he]
        exact he
      · by_cases ht2 : containsSub line TITLE_PAGE_END = true
        · have he : processLine st line = ({ st with in_title_page := false }, line) := by
            unfold processLine
            dsimp only []
            rw [if_neg hb, if_neg hc, if_neg ht1, if_pos ht2]
          rw [he]
          exact he
        · rcases hm : matchHeading line with _ | ⟨lv, rawText⟩
          · have he : processLine st line = (st, line) := by
              unfold processLine
              dsimp only []
              rw [if_neg hb, if_neg hc, if_neg ht1, if_neg ht2, hm]
            rw [he]
            exact he
          · by_cases hti : st.in_title_page = true
            · have he : processLine st line = (st, line) := by
                unfold processLine
                dsimp only []
                rw [if_neg hb, if_neg hc, if_neg ht1, if_neg ht2, hm]
                dsimp only []
                rw [if_pos hti]
              rw [he]
              exact he
            · obtain ⟨hlv1, hlv6⟩ := matchHeading_level line lv rawText hm
              have hraw_ne : pyStrip rawText ≠ [] := by
                unfold goodLine at hgood
                dsimp only [] at hgood
                rw [if_neg hb, if_neg hc, if_neg ht1, if_neg ht2, hm] at hgood
                dsimp only [] at hgood
                rw [Bool.or_eq_true] at hgood
                rcases hgood with hgood | hgood
                · exact absurd hgood hti
                · intro habs
                  rw [habs] at hgood
                  simp at hgood
              have htext_ne := strip_prefix_strip_ne_nil rawText hraw_ne
              have htext_head : ∀ c, (pyStrip (stripNumberPrefix (pyStrip rawText))).head? = some c → pyIsSpace c = false :=
                fun c hc2 => pyStrip_head_not_space _ c hc2
              have htext_last : ∀ c, (pyStrip (stripNumberPrefix (pyStrip rawText))).getLast? = some c → pyIsSpace c = false :=
                fun c hc2 => pyStrip_getLast_not_space _ c hc2
              have hlvlen : lv ≤ st.counters.length := by
                rw [hcs]
                omega
              obtain ⟨hnb_ne, hnb_chars, hnb_head, hnb_pref⟩ :=
                headingNumbering_spec st.counters lv hlv1 hlvlen
              have he : processLine st line =
                  ({ st with counters := bumpCounters st.counters lv }, List.replicate lv '#' ++ ' ' :: (headingNumbering (bumpCounters st.counters lv) lv ++ ' ' :: pyStrip (stripNumberPrefix (pyStrip rawText)))) := by
                unfold processLine
                dsimp only []
                rw [if_neg hb, if_neg hc, if_neg ht1, if_neg ht2, hm]
                dsimp only []
                rw [if_neg hti]
                rw [if_pos hnb_ne]
                rw [numbered_line_rstrip lv _ _ htext_ne htext_last]
              rw [he]
              dsimp only []
              have hstrip_out : pyStrip (List.replicate lv '#' ++ ' ' :: (headingNumbering (bumpCounters st.counters lv) lv ++ ' ' :: pyStrip (stripNumberPrefix (pyStrip rawText)))) = List.replicate lv '#' ++ ' ' :: (headingNumbering (bumpCounters st.counters lv) lv ++ ' ' :: pyStrip (stripNumberPrefix (pyStrip rawText))) :=
                numbered_line_strip lv hlv1 _ _ htext_ne htext_last
              have hfence2 : ¬ ((("```".toList).isPrefixOf (pyStrip (List.replicate lv '#' ++ ' ' :: (headingNumbering (bumpCounters st.counters lv) lv ++ ' ' :: pyStrip (stripNumberPrefix (pyStrip rawText)))))) ||
                  (("~~~".toList).isPrefixOf (pyStrip (List.replicate lv '#' ++ ' ' :: (headingNumbering (bumpCounters st.counters lv) lv ++ ' ' :: pyStrip (stripNumberPrefix (pyStrip rawText))))))) = true := by
                rw [hstrip_out]
                obtain ⟨k, hk⟩ : ∃ k, lv = k + 1 := ⟨lv - 1, by omega⟩
                rw [hk, List.replicate_succ, List.cons_append]
                rw [show ("```".toList) = '\x60' :: ['\x60', '\x60'] from rfl]
                rw [show ("~~~".toList) = '~' :: ['~', '~'] from rfl]
                rw [isPrefixOf_cons_of_ne _ _ _ _ (by decide)]
                rw [isPrefixOf_cons_of_ne _ _ _ _ (by decide)]
                simp
              have hchain : (pyStrip (stripNumberPrefix (pyStrip rawText))).IsInfix line :=
                ((pyStrip_within _).trans (stripNumberPrefix_within _)).trans
                  ((pyStrip_within _).trans (matchHeading_text_within line lv rawText hm))
              have hT1 : TITLE_PAGE_START = '<' :: "!-- TITLE_PAGE_START -->".toList := rfl
              have hT2 : TITLE_PAGE_END = '<' :: "!-- TITLE_PAGE_END -->".toList := rfl
              have ht1' : ¬ containsSub (List.replicate lv '#' ++ ' ' :: (headingNumbering (bumpCounters st.counters lv) lv ++ ' ' :: pyStrip (stripNumberPrefix (pyStrip rawText)))) TITLE_PAGE_START = true := by
                intro habs
                have hinf := (containsSub_iff_within TITLE_PAGE_START _).mp habs
                rw [hT1] at hinf
                have hinf2 := infix_numbered_line lv _ _ _ hnb_chars hinf
                apply ht1
                apply (containsSub_iff_within TITLE_PAGE_START line).mpr
                rw [hT1]
                exact hinf2.trans hchain
              have ht2' : ¬ containsSub (List.replicate lv '#' ++ ' ' :: (headingNumbering (bumpCounters st.counters lv) lv ++ ' ' :: pyStrip (stripNumberPrefix (pyStrip rawText)))) TITLE_PAGE_END = true := by
                intro habs
                have hinf := (containsSub_iff_within TITLE_PAGE_END _).mp habs
                rw [hT2] at hinf
                have hinf2 := infix_numbered_line lv _ _ _ hnb_chars hinf
                apply ht2
                apply (containsSub_iff_within TITLE_PAGE_END line).mpr
                rw [hT2]
                exact hinf2.trans hchain
              have hhead2 : ∀ c, ((headingNumbering (bumpCounters st.counters lv) lv) ++ ' ' :: (pyStrip (stripNumberPrefix (pyStrip rawText)))).head? = some c →
                  pyIsSpace c = false := by
                intro c hc2
                rcases hnbe : (headingNumbering (bumpCounters st.counters lv) lv) with _ | ⟨d, nbt⟩
                · exact absurd hnbe hnb_ne
                · rw [hnbe, List.cons_append, List.head?_cons] at hc2
                  injection hc2 with hdc
                  subst hdc
                  apply isDigit_not_space
                  apply hnb_head
                  rw [hnbe]
                  rfl
              have hmh2 : matchHeading (List.replicate lv '#' ++ ' ' :: (headingNumbering (bumpCounters st.counters lv) lv ++ ' ' :: pyStrip (stripNumberPrefix (pyStrip rawText)))) = some (lv, (headingNumbering (bumpCounters st.counters lv) lv) ++ ' ' :: (pyStrip (stripNumberPrefix (pyStrip rawText)))) :=
                matchHeading_hash_space lv hlv1 hlv6 _ (by simp) hhead2
              have hstrip_tail : pyStrip ((headingNumbering (bumpCounters st.counters lv) lv) ++ ' ' :: (pyStrip (stripNumberPrefix (pyStrip rawText)))) =
                  (headingNumbering (bumpCounters st.counters lv) lv) ++ ' ' :: (pyStrip (stripNumberPrefix (pyStrip rawText))) :=
                numbered_tail_strip _ _ hnb_ne hnb_head htext_ne htext_last
              have hsnp : stripNumberPrefix ((headingNumbering (bumpCounters st.counters lv) lv) ++ ' ' :: (pyStrip (stripNumberPrefix (pyStrip rawText)))) = pyStrip (stripNumberPrefix (pyStrip rawText)) :=
                stripNumberPrefix_numbered _ _ hnb_ne hnb_chars hnb_pref htext_head
              have htext_strip : pyStrip (pyStrip (stripNumberPrefix (pyStrip rawText))) = pyStrip (stripNumberPrefix (pyStrip rawText)) := pyStrip_idem _
              unfold processLine
              dsimp only []
              rw [if_neg hfence2, if_neg hc, if_neg ht1', if_neg ht2', hmh2]
              dsimp only []
              rw [if_neg hti]
              rw [hstrip_tail, hsnp, htext_strip]
              rw [if_pos hnb_ne]
              rw [numbered_line_rstrip lv _ _ htext_ne htext_last]

lemma numberLines_idem : ∀ (lines : List (List Char)) (st : NumberingState),
    st.counters.length = 6 → goodLines st lines = true →
    numberLines st (numberLines st lines) = numberLines st lines := by
  intro lines
  induction lines with
  | nil =>
    intro st _ _
    rfl
  | cons line rest ih =>
    intro st hcs hg
    rw [goodLines, Bool.and_eq_true] at hg
    obtain ⟨hg1, hg2⟩ := hg
    have hout := processLine_idem st line hcs hg1
    have h1 : numberLines st (line :: rest) =
        (processLine st line).2 :: numberLines (processLine st line).1 rest := rfl
    rw [h1]
    have h2 : numberLines st
        ((processLine st line).2 :: numberLines (processLine st line).1 rest) =
        (processLine st (processLine st line).2).2 ::
          numberLines (processLine st (processLine st line).2).1
            (numberLines (processLine st line).1 rest) := rfl
    rw [h2, hout]
    congr 1
    exact ih _ (by rw [processLine_counters_length]; exact hcs) hg2

lemma numberLines_take : ∀ (lines : List (List Char)) (st : NumberingState) (k : Nat),
    numberLines st (lines.take k) = (numberLines st lines).take k := by
  intro lines
  induction lines with
  | nil =>
    intro st k
    rw [List.take_nil]
    rw [show numberLines st ([] : List (List Char)) = [] from rfl]
    rw [List.take_nil]
  | cons line rest ih =>
    intro st k
    cases k with
    | zero => rfl
    | succ k2 =>
      rw [List.take_succ_cons]
      have h1 : numberLines st (line :: rest.take k2) =
          (processLine st line).2 :: numberLines (processLine st line).1 (rest.take k2) := rfl
      have h2 : numberLines st (line :: rest) =
          (processLine st line).2 :: numberLines (processLine st line).1 rest := rfl
      rw [h1, h2, List.take_succ_cons]
      congr 1
      exact ih _ k2

lemma numberLines_breakFree : ∀ (lines : List (List Char)) (st : NumberingState),
    (∀ l ∈ lines, breakFree l = true) →
    ∀ l ∈ numberLines st lines, breakFree l = true := by
  intro lines
  induction lines with
  | nil =>
    intro st _ l hl
    rw [show numberLines st [] = [] from rfl] at hl
    exact absurd hl (List.not_mem_nil l)
  | cons line rest ih =>
    intro st hbf l hl
    have h1 : numberLines st (line :: rest) =
        (processLine st line).2 :: numberLines (processLine st line).1 rest := rfl
    rw [h1] at hl
    rcases List.mem_cons.mp hl with rfl | hl2
    · exact processLine_breakFree st line (hbf line (by simp))
    · exact ih _ (fun x hx => hbf x (by simp [hx])) l hl2

lemma numberLines_ne_nil (st : NumberingState) (l : List Char)
    (rest : List (List Char)) : numberLines st (l :: rest) ≠ [] := by
  rw [show numberLines st (l :: rest) =
    (processLine st l).2 :: numberLines (processLine st l).1 rest from rfl]
  simp

lemma pySplitlinesGo_cons (c : Char) (X cur : List Char)
    (hnc : ¬(c = '\r' ∧ X.head? = some '\n')) :
    pySplitlinesGo (c :: X) cur =
      if isLineBreak c then cur :: pySplitlinesGo X [] else pySplitlinesGo X (cur ++ [c]) := by
  conv_lhs => rw [pySplitlinesGo.eq_def]
  split
  · next heq => exact absurd heq (by simp)
  · next rest2 heq =>
    exfalso
    injection heq with h1 h2
    subst h1
    apply hnc
    constructor
    · rfl
    · rw [h2]
      rfl
  · next c2 rest h1 heq =>
    injection heq with h3 h4
    subst h3
    subst h4
    rfl

lemma pySplitlinesGo_crlf (rest2 cur : List Char) :
    pySplitlinesGo ('\r' :: '\n' :: rest2) cur = cur :: pySplitlinesGo rest2 [] := rfl

lemma not_break_ne_cr (c : Char) (h : isLineBreak c = false) : c ≠ '\r' := by
  intro he
  subst he
  exact absurd h (by decide)

lemma pySplitlinesGo_no_break : ∀ (l : List Char), (∀ c ∈ l, isLineBreak c = false) →
    ∀ cur, pySplitlinesGo l cur = if cur ++ l = [] then [] else [cur ++ l] := by
  intro l
  induction l with
  | nil =>
    intro _ cur
    rw [show pySplitlinesGo [] cur = if cur = [] then [] else [cur] from rfl]
    simp
  | cons c t ih =>
    intro hl cur
    have hc : isLineBreak c = false := hl c (by simp)
    rw [pySplitlinesGo_cons c t cur (fun hp => not_break_ne_cr c hc hp.1)]
    rw [if_neg (by rw [hc]; simp)]
    rw [ih (fun x hx => hl x (by simp [hx])) (cur ++ [c])]
    rw [if_neg (by simp), if_neg (by simp)]
    congr 1
    simp

lemma pySplitlinesGo_ne_nil : ∀ (l : List Char), l ≠ [] →
    ∀ cur, pySplitlinesGo l cur ≠ [] := by
  intro l
  induction l with
  | nil => intro h; exact absurd rfl h
  | cons c t ih =>
    intro _ cur
    by_cases hcr : c = '\r' ∧ t.head? = some '\n'
    · obtain ⟨rfl, hh⟩ := hcr
      rcases t with _ | ⟨d, t2⟩
      · simp at hh
      · rw [List.head?_cons] at hh
        injection hh with hd
        subst hd
        rw [pySplitlinesGo_crlf]
        simp
    · rw [pySplitlinesGo_cons c t cur hcr]
      split
      · simp
      · rcases ht : t with _ | ⟨d, t2⟩
        · rw [show pySplitlinesGo [] (cur ++ [c]) =
            if cur ++ [c] = [] then [] else [cur ++ [c]] from rfl]
          rw [if_neg (by simp)]
          simp
        · rw [← ht]
          exact ih (by rw [ht]; simp) (cur ++ [c])

lemma pySplitlinesGo_append_newline : ∀ (l : List Char),
    (∀ c ∈ l, isLineBreak c = false) → ∀ (cur rest : List Char),
    pySplitlinesGo (l ++ '\n' :: rest) cur = (cur ++ l) :: pySplitlinesGo rest [] := by
  intro l
  induction l with
  | nil =>
    intro _ cur rest
    rw [List.nil_append]
    rw [pySplitlinesGo_cons '\n' rest cur (fun hp => absurd hp.1 (by decide))]
    rw [if_pos (by decide)]
    simp
  | cons c t ih =>
    intro hl cur rest
    have hc : isLineBreak c = false := hl c (by simp)
    rw [List.cons_append]
    rw [pySplitlinesGo_cons c _ cur (fun hp => not_break_ne_cr c hc hp.1)]
    rw [if_neg (by rw [hc]; simp)]
    rw [ih (fun x hx => hl x (by simp [hx])) (cur ++ [c]) rest]
    have hfix : (cur ++ [c]) ++ t = cur ++ c :: t := by simp
    rw [hfix]

lemma pySplitlines_join_newline : ∀ (L : List (List Char)), L ≠ [] →
    (∀ l ∈ L, ∀ c ∈ l, isLineBreak c = false) →
    pySplitlines (joinWith '\n' L ++ ['\n']) = L := by
  intro L
  induction L with
  | nil => intro h _; exact absurd rfl h
  | cons l rest ih =>
    intro _ hbf
    cases rest with
    | nil =>
      rw [show joinWith '\n' [l] = l from rfl]
      rw [pySplitlines]
      rw [show l ++ ['\n'] = l ++ '\n' :: ([] : List Char) from rfl]
      rw [pySplitlinesGo_append_newline l (hbf l (by simp)) [] []]
      rw [show pySplitlinesGo ([] : List Char) ([] : List Char) =
        if ([] : List Char) = [] then [] else [[]] from rfl]
      simp
    | cons l2 rest2 =>
      rw [joinWith_cons_ne '\n' l _ (by simp)]
      rw [pySplitlines]
      rw [List.append_assoc, List.cons_append]
      rw [pySplitlinesGo_append_newline l (hbf l (by simp)) [] _]
      rw [show pySplitlinesGo (joinWith '\n' (l2 :: rest2) ++ ['\n']) ([] : List Char) =
        pySplitlines (joinWith '\n' (l2 :: rest2) ++ ['\n']) from rfl]
      rw [ih (by simp) (fun x hx => hbf x (by simp [hx]))]
      simp

lemma pySplitlines_join_last_ne : ∀ (L : List (List Char)), L ≠ [] →
    (∀ l ∈ L, ∀ c ∈ l, isLineBreak c = false) →
    L.getLast? ≠ some [] →
    pySplitlines (joinWith '\n' L) = L := by
  intro L
  induction L with
  | nil => intro h; exact absurd rfl h
  | cons l rest ih =>
    intro _ hbf hlast
    cases rest with
    | nil =>
      rw [show joinWith '\n' [l] = l from rfl]
      rw [pySplitlines]
      rw [pySplitlinesGo_no_break l (hbf l (by simp)) []]
      have hl_ne : l ≠ [] := by
        intro habs
        apply hlast
        rw [habs]
        rfl
      rw [List.nil_append, if_neg hl_ne]
    | cons l2 rest2 =>
      rw [joinWith_cons_ne '\n' l _ (by simp)]
      rw [pySplitlines]
      rw [pySplitlinesGo_append_newline l (hbf l (by simp)) [] _]
      rw [show pySplitlinesGo (joinWith '\n' (l2 :: rest2)) ([] : List Char) =
        pySplitlines (joinWith '\n' (l2 :: rest2)) from rfl]
      rw [ih (by simp) (fun x hx => hbf x (by simp [hx]))
        (by rwa [List.getLast?_cons_cons] at hlast)]
      simp

lemma joinWith_concat_ne (sep : Char) : ∀ (L : List (List Char)) (ln : List Char),
    L ≠ [] → joinWith sep (L ++ [ln]) = joinWith sep L ++ sep :: ln := by
  intro L
  induction L with
  | nil => intro ln h; exact absurd rfl h
  | cons l rest ih =>
    intro ln _
    cases rest with
    | nil =>
      rw [show ([l] : List (List Char)) ++ [ln] = [l, ln] from rfl]
      rw [joinWith_cons_ne sep l [ln] (by simp)]
      rw [show joinWith sep [ln] = ln from rfl, show joinWith sep [l] = l from rfl]
    | cons l2 rest2 =>
      rw [List.cons_append, joinWith_cons_ne sep l _ (by simp),
        joinWith_cons_ne sep l _ (by simp)]
      rw [ih ln (by simp)]
      simp

lemma breakFree_iff (l : List Char) :
    breakFree l = true ↔ ∀ c ∈ l, isLineBreak c = false := by
  rw [breakFree, List.all_eq_true]
  constructor
  · intro h c hc
    simpa using h c hc
  · intro h c hc
    simpa using h c hc

lemma pySplitlinesGo_breakFree : ∀ (n : Nat) (s cur : List Char), s.length ≤ n →
    breakFree cur = true → ∀ l ∈ pySplitlinesGo s cur, breakFree l = true := by
  intro n
  induction n with
  | zero =>
    intro s cur hlen h l hl
    have hs : s = [] := by
      cases s with
      | nil => rfl
      | cons a t => simp at hlen
    subst hs
    rw [show pySplitlinesGo [] cur = if cur = [] then [] else [cur] from rfl] at hl
    split at hl
    · exact absurd hl (List.not_mem_nil l)
    · rw [List.mem_singleton] at hl
      subst hl
      exact h
  | succ n ih =>
    intro s cur hlen h l hl
    cases s with
    | nil =>
      rw [show pySplitlinesGo [] cur = if cur = [] then [] else [cur] from rfl] at hl
      split at hl
      · exact absurd hl (List.not_mem_nil l)
      · rw [List.mem_singleton] at hl
        subst hl
        exact h
    | cons c t =>
      by_cases hcr : c = '\r' ∧ t.head? = some '\n'
      · obtain ⟨rfl, hh⟩ := hcr
        rcases t with _ | ⟨d, t2⟩
        · simp at hh
        · rw [List.head?_cons] at hh
          injection hh with hd
          subst hd
          rw [pySplitlinesGo_crlf] at hl
          rcases List.mem_cons.mp hl with rfl | hl2
          · exact h
          · exact ih t2 [] (by simp at hlen ⊢; omega) rfl l hl2
      · rw [pySplitlinesGo_cons c t cur hcr] at hl
        split at hl
        · rcases List.mem_cons.mp hl with rfl | hl2
          · exact h
          · exact ih t [] (by simp at hlen ⊢; omega) rfl l hl2
        · next hbr =>
          apply ih t (cur ++ [c]) (by simp at hlen ⊢; omega) ?_ l hl
          rw [breakFree, List.all_eq_true]
          intro x hx
          rcases List.mem_append.mp hx with hx1 | hx2
          · rw [breakFree, List.all_eq_true] at h
            exact h x hx1
          · rw [List.mem_singleton] at hx2
            subst hx2
            simpa using hbr

lemma pySplitlines_breakFree (m : List Char) :
    ∀ l ∈ pySplitlines m, breakFree l = true :=
  pySplitlinesGo_breakFree m.length m [] (le_refl _) rfl

/-- Idempotence of the heading renumbering on inputs whose visible
headings do not strip to blank text. -/
lemma number_markdown_headings_idem (m : List Char)
    (hg : goodLines initNumberingState (pySplitlines m) = true) :
    number_markdown_headings (number_markdown_headings m) =
      number_markdown_headings m := by
  have hcs6 : initNumberingState.counters.length = 6 := rfl
  have hbf0 : ∀ l ∈ pySplitlines m, breakFree l = true := pySplitlines_breakFree m
  have hbfL : ∀ l ∈ numberLines initNumberingState (pySplitlines m), breakFree l = true :=
    numberLines_breakFree (pySplitlines m) initNumberingState hbf0
  have hbfL' : ∀ l ∈ numberLines initNumberingState (pySplitlines m), ∀ c ∈ l, isLineBreak c = false :=
    fun l hl => (breakFree_iff l).mp (hbfL l hl)
  have hidem : numberLines initNumberingState (numberLines initNumberingState (pySplitlines m)) = numberLines initNumberingState (pySplitlines m) :=
    numberLines_idem (pySplitlines m) initNumberingState hcs6 hg
  unfold number_markdown_headings
  dsimp only []
  by_cases hnl : m.getLast? = some '\n'
  · rw [if_pos hnl]
    have hm_ne : m ≠ [] := by
      intro habs
      rw [habs] at hnl
      simp at hnl
    have hL0ne : pySplitlines m ≠ [] := pySplitlinesGo_ne_nil m hm_ne []
    have hLne : numberLines initNumberingState (pySplitlines m) ≠ [] := by
      rcases hL0c : pySplitlines m with _ | ⟨l0, L0r⟩
      · exact absurd hL0c hL0ne
      · exact numberLines_ne_nil _ _ _
    have hsp : pySplitlines (joinWith '\n' (numberLines initNumberingState (pySplitlines m)) ++ ['\n']) = numberLines initNumberingState (pySplitlines m) :=
      pySplitlines_join_newline _ hLne hbfL'
    have houtlast : (joinWith '\n' (numberLines initNumberingState (pySplitlines m)) ++ ['\n']).getLast? = some '\n' := by
      rw [getLast?_append_cons]
      rfl
    rw [if_pos houtlast]
    rw [hsp, hidem]
  · rw [if_neg hnl]
    rw [List.append_nil]
    by_cases hL0e : pySplitlines m = []
    · rw [hL0e]
      rw [show numberLines initNumberingState ([] : List (List Char)) = [] from rfl]
      rw [show joinWith '\n' ([] : List (List Char)) = [] from rfl]
      rw [show pySplitlines ([] : List Char) = [] from rfl]
      rw [show numberLines initNumberingState ([] : List (List Char)) = [] from rfl]
      rw [show joinWith '\n' ([] : List (List Char)) = [] from rfl]
      rw [if_neg (by simp)]
      rfl
    · have hLne : numberLines initNumberingState (pySplitlines m) ≠ [] := by
        rcases hL0c : pySplitlines m with _ | ⟨l0, L0r⟩
        · exact absurd hL0c hL0e
        · exact numberLines_ne_nil _ _ _
      rcases List.eq_nil_or_concat (numberLines initNumberingState (pySplitlines m)) with hLnil | ⟨L2, ln, hLc⟩
      · exact absurd hLnil hLne
      · rw [List.concat_eq_append] at hLc
        by_cases hlnE : ln = []
        · subst hlnE
          by_cases hL2e : L2 = []
          · rw [hLc, hL2e]
            rw [show ([] : List (List Char)) ++ [([] : List Char)] =
              [([] : List Char)] from rfl]
            rw [show joinWith '\n' [([] : List Char)] = [] from rfl]
            rw [show pySplitlines ([] : List Char) = [] from rfl]
            rw [show numberLines initNumberingState ([] : List (List Char)) = [] from rfl]
            rw [show joinWith '\n' ([] : List (List Char)) = [] from rfl]
            rw [if_neg (by simp)]
            rfl
          · rw [hLc]
            rw [joinWith_concat_ne '\n' L2 [] hL2e]
            have hsp3 : pySplitlines (joinWith '\n' L2 ++ ['\n']) = L2 :=
              pySplitlines_join_newline L2 hL2e
                (fun x hx => hbfL' x (by rw [hLc]; exact List.mem_append_left _ hx))
            have houtlast3 : (joinWith '\n' L2 ++ ['\n']).getLast? = some '\n' := by
              rw [getLast?_append_cons]
              rfl
            rw [if_pos houtlast3]
            rw [hsp3]
            have htake : (L2 ++ [([] : List Char)]).take L2.length = L2 :=
              List.take_left _ _
            have hNL2 : numberLines initNumberingState L2 = L2 := by
              calc numberLines initNumberingState L2
                  = numberLines initNumberingState
                      ((L2 ++ [([] : List Char)]).take L2.length) := by rw [htake]
                _ = (numberLines initNumberingState
                      (L2 ++ [([] : List Char)])).take L2.length :=
                    numberLines_take _ _ _
                _ = (numberLines initNumberingState (numberLines initNumberingState (pySplitlines m))).take L2.length := by
                    rw [← hLc]
                _ = (numberLines initNumberingState (pySplitlines m)).take L2.length := by rw [hidem]
                _ = (L2 ++ [([] : List Char)]).take L2.length := by rw [hLc]
                _ = L2 := htake
            rw [hNL2]
        · have hlast : (numberLines initNumberingState (pySplitlines m)).getLast? = some ln := by
            rw [hLc]
            exact List.getLast?_concat _
          have hlastne : (numberLines initNumberingState (pySplitlines m)).getLast? ≠ some [] := by
            rw [hlast]
            intro habs
            injection habs with h2
            exact hlnE h2
          have hsp2 : pySplitlines (joinWith '\n' (numberLines initNumberingState (pySplitlines m))) = numberLines initNumberingState (pySplitlines m) :=
            pySplitlines_join_last_ne _ hLne hbfL' hlastne
          have hjoinlast : (joinWith '\n' (numberLines initNumberingState (pySplitlines m))).getLast? = ln.getLast? := by
            rw [hLc]
            rcases hL2e : L2 with _ | ⟨x, xs⟩
            · rw [show ([] : List (List Char)) ++ [ln] = [ln] from rfl]
              rw [show joinWith '\n' [ln] = ln from rfl]
            · rw [← hL2e, joinWith_concat_ne '\n' L2 ln (by rw [hL2e]; simp)]
              rw [getLast?_append_cons, getLast?_cons_ne_nil _ _ hlnE]
          have hne2 : (joinWith '\n' (numberLines initNumberingState (pySplitlines m))).getLast? ≠ some '\n' := by
            rw [hjoinlast]
            rcases hgl : ln.getLast? with _ | c
            · simp
            · have hcmem : c ∈ ln := List.mem_of_mem_getLast? (by rw [hgl]; rfl)
              have hlnmem : ln ∈ numberLines initNumberingState (pySplitlines m) := by
                rw [hLc]
                exact List.mem_append.mpr (Or.inr (by simp))
              have hcfree := hbfL' ln hlnmem c hcmem
              intro habs
              injection habs with h2
              subst h2
              exact absurd hcfree (by decide)
          rw [hsp2, hidem]
          rw [if_neg hne2]
          rw [List.append_nil]

end DocWriter

/-- **C1**: after `CycleState.from_context(payload)` followed by
`CycleState.apply(payload)`, the payload's cycle fields satisfy
`cycles ≥ 1`, `0 ≤ cycles_completed ≤ cycles`, and
`cycles_remaining = cycles - cycles_completed`. -/
theorem C1_cycle_invariants (ctx : DocWriter.CyclePayload) :
    let a := (DocWriter.CycleState.from_context ctx).apply
    1 ≤ a.cycles ∧ 0 ≤ a.cycles_completed ∧ a.cycles_completed ≤ a.cycles ∧
      a.cycles_remaining = a.cycles - a.cycles_completed := by
  intro a
  have hreq := DocWriter.from_context_requested_pos ctx
  have hcomp := DocWriter.from_context_completed_bounds ctx
  simp only [a, DocWriter.CycleState.apply, DocWriter.CycleState.remaining]
  omega

/-- **C8** (counterexample): the claim fails when `revised` is blank: the
empty string contains no section-marker pair, yet
`merge_revised_markdown("x", "")` returns `"x"`, not the (empty) revised
string, because of the leading `if not revised.strip(): return original`
guard. -/
theorem C8_blank_counterexample :
    DocWriter.extract_sections "".toList = [] ∧
      DocWriter.merge_revised_markdown "x".toList "".toList ≠ "".toList := by
  constructor
  · rfl
  · decide

/-- **C8** (amended): for every original string and every *non-blank*
revised string containing no matched section-marker pair,
`merge_revised_markdown(original, revised)` returns `revised`
(full-document replace).  A blank `revised` instead returns `original`. -/
theorem C8_no_markers_full_replace (original revised : List Char)
    (hblank : DocWriter.isBlank revised = false)
    (hnone : DocWriter.extract_sections revised = []) :
    DocWriter.merge_revised_markdown original revised = revised := by
  unfold DocWriter.merge_revised_markdown
  simp [hblank, hnone]

/-- Witness for `C8_no_markers_full_replace` at `original = "a"`,
`revised = "b"`. -/
theorem C8_no_markers_witness :
    DocWriter.isBlank "b".toList = false ∧
      DocWriter.extract_sections "b".toList = [] ∧
      DocWriter.merge_revised_markdown "a".toList "b".toList = "b".toList :=
  ⟨by decide, by rfl,
    C8_no_markers_full_replace "a".toList "b".toList (by decide) (by rfl)⟩

/-- **C9**: merging a document with itself is the identity:
`merge_revised_markdown(d, d) = d` for every string `d`. -/
theorem C9_merge_idempotent (d : List Char) :
    DocWriter.merge_revised_markdown d d = d := by
  simp only [DocWriter.merge_revised_markdown]
  split
  · rfl
  · split
    · rfl
    · apply DocWriter.foldl_mergeSection_self
      intro p hp
      exact DocWriter.dictGet_mem _ p.1 p.2 (DocWriter.extract_sections_keys_nodup d) hp

/-- **C6** (counterexample): `relative` does not reject every empty or
absolute segment: the empty string is silently dropped by `_join`'s
`if seg` filter (returning the bare root), and an absolute segment has its
leading slash stripped and is accepted. -/
theorem C6_accepts_empty_and_absolute :
    DocWriter.JobStoragePaths.relative "u".toList "j".toList [] =
        Except.ok "jobs/u/j".toList ∧
      DocWriter.JobStoragePaths.relative "u".toList "j".toList "/etc/passwd".toList =
        Except.ok "jobs/u/j/etc/passwd".toList := by
  constructor
  · rfl
  · rfl

/-- **C6** (amended): `JobStoragePaths.relative(r)` never yields a blob
path outside `root = jobs/<user_id>/<job_id>`: an empty `r` yields the
bare root; a whitespace-only `r` is rejected; and any accepted `r`
(including absolute segments, whose leading slashes are stripped rather
than rejected) yields `root ++ "/" ++ c` where `c` is a nonempty join of
components none of which is empty, `"."`, `".."`, or slash-bearing —
i.e. a path strictly under the job root. -/
theorem C6_relative_stays_under_root (user job rel rt : List Char)
    (hroot : DocWriter.JobStoragePaths.root user job = .ok rt) :
    (rel = [] → DocWriter.JobStoragePaths.relative user job rel = .ok rt) ∧
    (rel ≠ [] → DocWriter.pyStrip rel = [] →
      ∃ e, DocWriter.JobStoragePaths.relative user job rel = .error e) ∧
    (∀ p, DocWriter.JobStoragePaths.relative user job rel = .ok p →
      p = rt ∨ ∃ cs, cs ≠ [] ∧ (∀ c ∈ cs, DocWriter.goodComp c) ∧
        p = rt ++ '/' :: DocWriter.joinSlash cs) := by
  unfold DocWriter.JobStoragePaths.relative
  rw [hroot]
  refine ⟨?_, ?_, ?_⟩
  · intro hrel
    simp [hrel, Bind.bind, Except.bind, Pure.pure, Except.pure]
  · intro hrel hstrip
    refine ⟨"Relative path segment cannot be empty", ?_⟩
    simp only [Bind.bind, Except.bind, hrel, if_neg hrel]
    unfold DocWriter.JobStoragePaths.normalize_relative
    rw [hstrip]
    simp [Except.map]
  · intro p hp
    by_cases hrel : rel = []
    · left
      simp [hrel, Bind.bind, Except.bind, Pure.pure, Except.pure] at hp
      exact hp.symm
    · right
      simp only [Bind.bind, Except.bind, if_neg hrel] at hp
      rcases hn : DocWriter.JobStoragePaths.normalize_relative rel with e | c
      · rw [hn] at hp
        exact absurd hp (by simp)
      · rw [hn] at hp
        simp only [Pure.pure, Except.pure, Except.ok.injEq] at hp
        obtain ⟨cs, hne, hgood, hcs⟩ := DocWriter.normalize_relative_ok rel c hn
        exact ⟨cs, hne, hgood, by rw [← hp, hcs]⟩

/-- Witness for `C6_relative_stays_under_root` at `user = "u"`,
`job = "j"`, `rel = "a/b"`. -/
theorem C6_relative_witness :
    DocWriter.JobStoragePaths.root "u".toList "j".toList = .ok "jobs/u/j".toList ∧
    (∀ p, DocWriter.JobStoragePaths.relative "u".toList "j".toList "a/b".toList = .ok p →
      p = "jobs/u/j".toList ∨ ∃ cs, cs ≠ [] ∧ (∀ c ∈ cs, DocWriter.goodComp c) ∧
        p = "jobs/u/j".toList ++ '/' :: DocWriter.joinSlash cs) :=
  ⟨by rfl,
    (C6_relative_stays_under_root "u".toList "j".toList "a/b".toList
      "jobs/u/j".toList (by rfl)).2.2⟩

/-- **C5**: every batch returned by `_plan_review_batches` holds at most
`max(1, review_batch_size)` sections; the concatenation of the batches is
exactly the not-yet-completed sections in order; and (for any
prompt-size estimate that is monotone under extending a batch) a section
whose prompt alone exceeds `review_max_prompt_tokens` still lands in a
batch of its own rather than being dropped. -/
theorem C5_plan_review_batches (ordered completed : List String)
    (tok : List String → Nat) (rbs rmpt : Int) :
    (DocWriter.plan_review_batches ordered completed tok rbs rmpt).join =
        ordered.filter (fun sid => !completed.contains sid) ∧
    (∀ b ∈ DocWriter.plan_review_batches ordered completed tok rbs rmpt,
      (b.length : Int) ≤ max 1 (if rbs = 0 then 1 else rbs)) ∧
    ((∀ l x, tok l ≤ tok (l ++ [x])) → (∀ l x, tok [x] ≤ tok (l ++ [x])) →
      ∀ sid ∈ ordered.filter (fun sid => !completed.contains sid),
        (tok [sid] : Int) > max 1 (if rmpt = 0 then 1 else rmpt) →
          [sid] ∈ DocWriter.plan_review_batches ordered completed tok rbs rmpt) := by
  unfold DocWriter.plan_review_batches
  dsimp only []
  set maxB : Int := max 1 (if rbs = 0 then 1 else rbs) with hmaxB
  set maxT : Int := max 1 (if rmpt = 0 then 1 else rmpt) with hmaxT
  have hmb : (1 : Int) ≤ maxB := le_max_left _ _
  set remaining := ordered.filter (fun sid => !completed.contains sid) with hrem
  set st := remaining.foldl (DocWriter.planStep tok maxB maxT) ([], []) with hst
  have hjoin := DocWriter.planFold_join tok maxB maxT remaining [] []
  have hsizes := DocWriter.planFold_sizes tok maxB maxT hmb remaining [] []
    (by simp; omega) (by simp)
  rw [← hst] at hjoin hsizes
  refine ⟨?_, ?_, ?_⟩
  · split
    · next hne =>
      have hj2 : (st.1 ++ [st.2]).join = st.1.join ++ st.2 := by simp
      rw [hj2]
      simpa using hjoin
    · next hne =>
      push_neg at hne
      rw [hne] at hjoin
      simpa using hjoin
  · intro b hb
    split at hb
    · rcases List.mem_append.mp hb with hb | hb
      · exact hsizes.2 b hb
      · simp at hb
        subst hb
        omega
    · exact hsizes.2 b hb
  · intro h1 h2 sid hsid hbig
    have hsing := DocWriter.planFold_singleton tok maxB maxT h1 h2 remaining [] [] sid
      hbig (Or.inr hsid)
    rw [← hst] at hsing
    rcases hsing with hin | hcur
    · split
      · exact List.mem_append.mpr (Or.inl hin)
      · exact hin
    · split
      · next hne => exact List.mem_append.mpr (Or.inr (by simp [← hcur]))
      · next hne =>
        push_neg at hne
        rw [hne] at hcur
        exact absurd hcur.symm (by simp)

/-- Witness for `C5_plan_review_batches`: three sections, none completed,
an estimate of 20000 tokens per section (monotone in batch extension) and
the default limits `review_batch_size = 3`,
`review_max_prompt_tokens = 15000`; every section is oversized, so each
occupies a batch of its own and none is dropped. -/
theorem C5_plan_review_witness :
    (DocWriter.plan_review_batches ["s1", "s2", "s3"] []
        (fun l => l.length * 20000) 3 15000).join = ["s1", "s2", "s3"] ∧
      ["s2"] ∈ DocWriter.plan_review_batches ["s1", "s2", "s3"] []
        (fun l => l.length * 20000) 3 15000 := by
  have h := C5_plan_review_batches ["s1", "s2", "s3"] []
    (fun l => l.length * 20000) 3 15000
  refine ⟨by simpa using h.1, ?_⟩
  apply h.2.2
  · intro l x
    simp
  · intro l x
    simp
  · decide
  · decide

/-- **C2** (counterexample): on a completing batch the outbound payload
does *not* clear `rewritten_sections`: it carries the accumulated
rewritten ids (`["s1"]` here), while `placeholder_sections` is cleared. -/
theorem C2_rewritten_not_cleared :
    DocWriter.process_rewrite ⟨2, 0⟩ true [] ["s1"] ["s1"] [] 5 =
        .complete .review_general
          { requires_rewrite := false
            rewritten_sections := ["s1"]
            placeholder_sections := []
            cycles := 2
            expected_cycles := 2
            cycles_completed := 1
            cycles_remaining := 1 } ∧
      (["s1"] : List String) ≠ [] := by
  constructor
  · rfl
  · simp

/-- **C2** (amended): when the affected-section batch completes (no
remaining affected sections), `process_rewrite` increments
`cycles_completed` by one capped at the requested cycles, recomputes
`cycles_remaining`, clears `placeholder_sections`, *keeps* the
accumulated `rewritten_sections` (a superset of the inbound ones), resets
`requires_rewrite`, and enqueues `review_general` when the new completed
count is below the requested count, else `diagram_prep`. -/
theorem C2_rewrite_completion (state : DocWriter.CycleState) (rr : Bool)
    (rewritten0 affected known placeholders : List String) (wbs : Int)
    (q : DocWriter.Queue) (msg : DocWriter.RewriteMsg)
    (h : DocWriter.process_rewrite state rr rewritten0 affected known placeholders wbs =
      .complete q msg) :
    msg.cycles = state.requested ∧
    msg.cycles_completed = min state.requested (state.completed + 1) ∧
    msg.cycles_remaining = max 0 (state.requested - msg.cycles_completed) ∧
    msg.placeholder_sections = [] ∧
    msg.requires_rewrite = false ∧
    q = (if msg.cycles_completed < state.requested
         then DocWriter.Queue.review_general else DocWriter.Queue.diagram_prep) ∧
    (∀ sid ∈ rewritten0, sid ∈ msg.rewritten_sections) := by
  unfold DocWriter.process_rewrite at h
  have tail : ∀ rew : List String,
      DocWriter.rewriteCompletionTail state rew = .complete q msg →
      (∀ sid ∈ rewritten0, sid ∈ rew) →
      msg.cycles = state.requested ∧
      msg.cycles_completed = min state.requested (state.completed + 1) ∧
      msg.cycles_remaining = max 0 (state.requested - msg.cycles_completed) ∧
      msg.placeholder_sections = [] ∧
      msg.requires_rewrite = false ∧
      q = (if msg.cycles_completed < state.requested
           then DocWriter.Queue.review_general else DocWriter.Queue.diagram_prep) ∧
      (∀ sid ∈ rewritten0, sid ∈ msg.rewritten_sections) := by
    intro rew htail hsub
    obtain ⟨hmsg, hq⟩ := DocWriter.rewriteCompletionTail_spec state rew q msg htail
    subst hmsg
    refine ⟨rfl, rfl, rfl, rfl, rfl, hq, hsub⟩
  split at h
  · dsimp only [] at h
    generalize hrew : rewritten0 ++
        List.filter (fun sid => known.contains sid)
          (List.take (max 1 (if wbs = 0 then (5 : Int) else wbs)).toNat
            (List.filter (fun sid => !rewritten0.contains sid) affected)) = rew at h
    split at h
    · exact absurd h (by simp)
    · exact tail _ h (fun sid hs => by rw [← hrew]; exact List.mem_append.mpr (Or.inl hs))
  · exact tail _ h (fun sid hs => hs)

/-- Witness for `C2_rewrite_completion`: a payload with no rewrite work
left (`requires_rewrite = False`) at `completed = 1` of `requested = 3`
completes the cycle and routes to `review_general`. -/
theorem C2_rewrite_completion_witness :
    DocWriter.process_rewrite ⟨3, 1⟩ false ["a"] [] [] [] 5 =
        .complete .review_general
          { requires_rewrite := false
            rewritten_sections := ["a"]
            placeholder_sections := []
            cycles := 3
            expected_cycles := 3
            cycles_completed := 2
            cycles_remaining := 1 } ∧
      (2 : Int) = min 3 (1 + 1) ∧
      (∀ sid ∈ (["a"] : List String), sid ∈
        (DocWriter.RewriteMsg.rewritten_sections
          { requires_rewrite := false
            rewritten_sections := ["a"]
            placeholder_sections := []
            cycles := 3
            expected_cycles := 3
            cycles_completed := 2
            cycles_remaining := 1 })) := by
  refine ⟨by rfl, by decide, ?_⟩
  exact (C2_rewrite_completion ⟨3, 1⟩ false ["a"] [] [] [] 5 .review_general
    { requires_rewrite := false
      rewritten_sections := ["a"]
      placeholder_sections := []
      cycles := 3
      expected_cycles := 3
      cycles_completed := 2
      cycles_remaining := 1 } (by rfl)).2.2.2.2.2.2

/-- **C4**: when the hydrated cycle state satisfies `completed ≥ requested`
at entry, `process_review_general` publishes `DIAGRAM QUEUED`, enqueues
the payload on `diagram_prep`, and performs no review work: no agent
call, no artifact write, and no send to any other queue. -/
theorem C4_review_exhausted_short_circuit (state : DocWriter.CycleState)
    (progressDone sectionsEmpty : Bool) (batches : List (List String))
    (remainingAfter : Bool) (h : state.requested ≤ state.completed) :
    DocWriter.process_review_general state progressDone sectionsEmpty batches
        remainingAfter =
      [.stageEvent "DIAGRAM" "QUEUED", .send .diagram_prep] ∧
    DocWriter.Effect.agentCall ∉
      DocWriter.process_review_general state progressDone sectionsEmpty batches
        remainingAfter ∧
    (∀ path, DocWriter.Effect.artifactWrite path ∉
      DocWriter.process_review_general state progressDone sectionsEmpty batches
        remainingAfter) ∧
    (∀ q, DocWriter.Effect.send q ∈
        DocWriter.process_review_general state progressDone sectionsEmpty batches
          remainingAfter → q = DocWriter.Queue.diagram_prep) := by
  have heq : DocWriter.process_review_general state progressDone sectionsEmpty batches
      remainingAfter = [.stageEvent "DIAGRAM" "QUEUED", .send .diagram_prep] := by
    unfold DocWriter.process_review_general
    rw [if_pos h]
  refine ⟨heq, ?_, ?_, ?_⟩
  · rw [heq]; simp
  · intro path; rw [heq]; simp
  · intro q hq
    rw [heq] at hq
    simp at hq
    exact hq

/-- Witness for `C4_review_exhausted_short_circuit` at
`requested = completed = 2`. -/
theorem C4_review_exhausted_witness :
    (2 : Int) ≤ 2 ∧
      DocWriter.process_review_general ⟨2, 2⟩ false false [["s1"]] true =
        [.stageEvent "DIAGRAM" "QUEUED", .send .diagram_prep] :=
  ⟨by decide,
    (C4_review_exhausted_short_circuit ⟨2, 2⟩ false false [["s1"]] true (by decide)).1⟩

/-- **C7**: if any extracted diagram's sanitized body fails PlantUML
validation, `process_diagram_prep` emits a `DIAGRAM_FAILED` event carrying
that diagram's issue list and terminates without enqueuing
`diagram_render` or `finalize_ready`. -/
theorem C7_invalid_diagram_aborts (diagrams : List (List Char))
    (h : ∃ b ∈ diagrams,
      DocWriter.validate_plantuml_source (DocWriter.sanitize_source b) ≠ []) :
    (∃ b ∈ diagrams,
      DocWriter.validate_plantuml_source (DocWriter.sanitize_source b) ≠ [] ∧
        DocWriter.Effect.diagramFailed
            (DocWriter.validate_plantuml_source (DocWriter.sanitize_source b)) ∈
          DocWriter.process_diagram_prep diagrams) ∧
    DocWriter.Effect.send .diagram_render ∉ DocWriter.process_diagram_prep diagrams ∧
    DocWriter.Effect.send .finalize_ready ∉ DocWriter.process_diagram_prep diagrams := by
  have hne : diagrams ≠ [] := by
    rcases h with ⟨b, hb, _⟩
    intro he
    subst he
    simp at hb
  unfold DocWriter.process_diagram_prep
  rw [if_neg hne]
  exact DocWriter.diagPrepLoop_invalid diagrams h

/-- Witness for `C7_invalid_diagram_aborts`: a single diagram whose body
is empty; sanitization wraps it into `@startuml\n@enduml`, which fails
validation with `empty diagram body`. -/
theorem C7_invalid_diagram_witness :
    DocWriter.validate_plantuml_source (DocWriter.sanitize_source []) ≠ [] ∧
      DocWriter.Effect.send .diagram_render ∉
        DocWriter.process_diagram_prep [[]] ∧
      DocWriter.Effect.send .finalize_ready ∉
        DocWriter.process_diagram_prep [[]] := by
  have h : ∃ b ∈ [([] : List Char)],
      DocWriter.validate_plantuml_source (DocWriter.sanitize_source b) ≠ [] :=
    ⟨[], by simp, by decide⟩
  have hc := C7_invalid_diagram_aborts [[]] h
  exact ⟨by decide, hc.2.1, hc.2.2⟩

/-- **C3**: over the graph built from an outline, `topological_order()`
returns, when the dependency relation is acyclic, a permutation of all
section ids in which every dependency precedes its dependent; and when
the relation has a cycle it fails with
`"Cycle detected in section dependencies"`. -/
theorem C3_topological_order (outline : List DocWriter.Section) :
    (DocWriter.hasCycle (DocWriter.build_dependency_graph outline) = false →
      ∃ order, DocWriter.topological_order (DocWriter.build_dependency_graph outline) =
          .ok order ∧
        order.Perm (DocWriter.build_dependency_graph outline).nodes ∧
        ∀ e ∈ (DocWriter.build_dependency_graph outline).edges,
          List.indexOf e.1 order < List.indexOf e.2 order) ∧
    (DocWriter.hasCycle (DocWriter.build_dependency_graph outline) = true →
      DocWriter.topological_order (DocWriter.build_dependency_graph outline) =
        .error "Cycle detected in section dependencies") := by
  obtain ⟨hnd, hwf⟩ := DocWriter.build_dependency_graph_wf outline
  set g := DocWriter.build_dependency_graph outline with hg
  set r := DocWriter.kahnLoop g (DocWriter.orderingKey g) g.nodes.length [] with hr
  obtain ⟨hinv, hreadyT⟩ :=
    DocWriter.kahnLoop_spec g (DocWriter.orderingKey g) g.nodes.length []
      (DocWriter.KahnInv_nil g)
  rw [← hr] at hinv hreadyT
  have hready : DocWriter.readyNodes g r = [] := hreadyT (by simp)
  have hsub : List.Subperm r g.nodes := List.subperm_of_subset hinv.1 hinv.2.1
  by_cases hlen : r.length = g.nodes.length
  · have hperm : r.Perm g.nodes := hsub.perm_of_length_le (by omega)
    constructor
    · intro _
      refine ⟨r, ?_, hperm, ?_⟩
      · unfold DocWriter.topological_order
        rw [← hr, if_pos hlen]
      · intro e he
        exact (hinv.2.2 e he (hperm.mem_iff.mpr (hwf e he).2)).2
    · intro hcyc
      exfalso
      rw [DocWriter.hasCycle, List.any_eq_true] at hcyc
      obtain ⟨e, he, hreach⟩ := hcyc
      have hall : ∀ e2 ∈ g.edges, e2.2 ∈ r := fun e2 he2 =>
        hperm.mem_iff.mpr (hwf e2 he2).2
      have h2r : e.2 ∈ r := hall e he
      obtain ⟨-, hlt⟩ := hinv.2.2 e he h2r
      rcases DocWriter.reach_respects g r (fun e2 he2 h2 => hinv.2.2 e2 he2 h2) hall
          g.nodes.length e.2 e.1 hreach with heq | ⟨-, hlt2⟩
      · rw [heq] at hlt
        omega
      · omega
  · constructor
    · intro hnc
      exfalso
      have hlt : r.length < g.nodes.length := by
        have := hsub.length_le
        omega
      have hex : ∃ v ∈ g.nodes, v ∉ r := by
        by_contra hno
        push_neg at hno
        have : List.Subperm g.nodes r := List.subperm_of_subset hnd hno
        have := this.length_le
        omega
      obtain ⟨v, hv, hvr⟩ := hex
      have := DocWriter.stuck_hasCycle g (fun e he => (hwf e he).1) r hready v hv hvr
      rw [hnc] at this
      exact absurd this (by simp)
    · intro _
      unfold DocWriter.topological_order
      rw [← hr, if_neg hlen]

/-- Witness for `C3_topological_order`: the two-section acyclic outline
`b; a (deps [b])` sorts successfully, and the two-section cyclic outline
`a <-> b` fails with the cycle error. -/
theorem C3_topological_witness :
    DocWriter.hasCycle (DocWriter.build_dependency_graph
        [⟨"b", []⟩, ⟨"a", ["b"]⟩]) = false ∧
    (∃ order, DocWriter.topological_order (DocWriter.build_dependency_graph
          [⟨"b", []⟩, ⟨"a", ["b"]⟩]) = .ok order ∧
        order.Perm (DocWriter.build_dependency_graph
          [⟨"b", []⟩, ⟨"a", ["b"]⟩]).nodes ∧
        ∀ e ∈ (DocWriter.build_dependency_graph [⟨"b", []⟩, ⟨"a", ["b"]⟩]).edges,
          List.indexOf e.1 order < List.indexOf e.2 order) ∧
    DocWriter.hasCycle (DocWriter.build_dependency_graph
        [⟨"a", ["b"]⟩, ⟨"b", ["a"]⟩]) = true ∧
    DocWriter.topological_order (DocWriter.build_dependency_graph
        [⟨"a", ["b"]⟩, ⟨"b", ["a"]⟩]) =
      .error "Cycle detected in section dependencies" :=
  ⟨by rfl,
    (C3_topological_order [⟨"b", []⟩, ⟨"a", ["b"]⟩]).1 (by rfl),
    by rfl,
    (C3_topological_order [⟨"a", ["b"]⟩, ⟨"b", ["a"]⟩]).2 (by rfl)⟩

/-- **C10** (counterexample): `number_markdown_headings` is not idempotent.
A visible heading whose text is blank, such as `"##  "`, is numbered to
`"## 1.1"` by the first pass; on the second pass the prefix-stripping regex
`HEADING_NUMBER_PREFIX_RE` does not remove the numbering `1.1` (it requires
trailing whitespace, and the rstripped line has none), so `1.1` is treated
as heading text and the pass produces `"## 1.1 1.1"`. -/
theorem C10_numbering_counterexample :
    DocWriter.number_markdown_headings
        (DocWriter.number_markdown_headings "##  ".toList) ≠
      DocWriter.number_markdown_headings "##  ".toList := by
  decide

/-- **C10** (amended): `number_markdown_headings` is idempotent on every
markdown string whose lines are good, i.e. in which no heading that is
visible (outside fenced code blocks and the title page) has text that
strips to nothing: on such input an existing numeric prefix is re-stripped
and the counters evolve identically on the second pass, while title-page
lines and fenced code blocks are untouched by both applications. -/
theorem C10_numbering_idempotent (m : List Char)
    (hg : DocWriter.goodLines DocWriter.initNumberingState
      (DocWriter.pySplitlines m) = true) :
    DocWriter.number_markdown_headings (DocWriter.number_markdown_headings m) =
      DocWriter.number_markdown_headings m :=
  DocWriter.number_markdown_headings_idem m hg

/-- **C10** (witness): the amended idempotence applies to a concrete
document with numbered and unnumbered headings, body text and a trailing
newline. -/
theorem C10_numbering_witness :
    DocWriter.goodLines DocWriter.initNumberingState
        (DocWriter.pySplitlines "# Alpha\ntext\n## 2 Beta\n".toList) = true ∧
      DocWriter.number_markdown_headings
          (DocWriter.number_markdown_headings "# Alpha\ntext\n## 2 Beta\n".toList) =
        DocWriter.number_markdown_headings "# Alpha\ntext\n## 2 Beta\n".toList :=
  ⟨by decide, C10_numbering_idempotent _ (by decide)⟩
